import Mathlib

/-!
# dontbug: breakpoint location indexer and command engine

A shallow embedding of `cmd/generate.go` (hash function, source index builder,
dispatch tree generator) and `engine/other_commands.go` (command handlers),
followed by the properties established about them.

Conventions of the embedding:

* a Go `string` is a list of bytes (`ByteStr`);
* a `uint64` is a natural number kept below `2 ^ 64` by explicit reduction;
* a Go `int` used as an index is an `Int` (slice lengths are far below `2 ^ 63`,
  so index arithmetic does not wrap);
* a run-time panic (index out of range), a `log.Fatal` exit and a recursion
  that does not come back are the three non-`ok` outcomes of `Res`.
-/

namespace Dontbug

/-! ## Outcomes of Go code -/

/-- Outcome of running a piece of Go code. -/
inductive Res (α : Type) where
  /-- normal return -/
  | ok (a : α) : Res α
  /-- run-time panic: index out of range -/
  | panic : Res α
  /-- the process was ended by `log.Fatal` -/
  | fatal : Res α
  /-- the recursion budget of the model was used up -/
  | diverge : Res α
  deriving DecidableEq

/-- Sequencing: the first non-`ok` outcome ends the computation. -/
def Res.bind {α β : Type} (x : Res α) (f : α → Res β) : Res β :=
  match x with
  | .ok a => f a
  | .panic => .panic
  | .fatal => .fatal
  | .diverge => .diverge

/-- Map over the value of a normal return. -/
def Res.mapOk {α β : Type} (f : α → β) (x : Res α) : Res β :=
  match x with
  | .ok a => .ok (f a)
  | .panic => .panic
  | .fatal => .fatal
  | .diverge => .diverge

/-! ## Byte strings and text -/

/-- A Go `string`: a sequence of bytes. -/
abbrev ByteStr := List (Fin 256)

/-- The bytes of an ASCII literal of the source. -/
def lit (t : String) : ByteStr := t.toList.map (fun c => Fin.ofNat c.toNat)

/-- Decimal rendering of an unsigned number, as `fmt` prints a `uint64`. -/
def decimal (n : Nat) : ByteStr := lit (Nat.repr n)

/-- Slice indexing `xs[k]` with a Go `int` index: panics when out of range. -/
def index {α : Type} (xs : List α) (k : Int) : Res α :=
  if k < 0 then .panic
  else match xs[k.toNat]? with
    | some x => .ok x
    | none => .panic

/-! ## HashFunction: `djbx33a` -/

/-- The assignment `hash = ((hash << 5) + hash) + uint64(b)` in `uint64` arithmetic. -/
def hashStep (hash : Nat) (b : Fin 256) : Nat :=
  (((hash <<< 5) % 2 ^ 64 + hash) % 2 ^ 64 + b.val) % 2 ^ 64

/-- Local variables of `djbx33a` (`hash`, `i`), with the indices read so far (in
order) kept as a ghost field. -/
structure HashState where
  hash : Nat
  i : Nat
  reads : List Nat
  deriving DecidableEq

/-- The loop body `hash = ((hash << 5) + hash) + uint64(byteStr[i]); i++`. -/
def readByte (byteStr : ByteStr) (st : HashState) : Res HashState :=
  match byteStr[st.i]? with
  | none => .panic
  | some b => .ok { hash := hashStep st.hash b, i := st.i + 1, reads := st.reads ++ [st.i] }

/-- The inner loop `for j := 0; j < 8; j++ { body }`, entered at `j`. -/
def innerLoop (byteStr : ByteStr) (j : Nat) (st : HashState) : Res HashState :=
  if j < 8 then
    match readByte byteStr st with
    | .ok st1 => innerLoop byteStr (j + 1) st1
    | .panic => .panic
    | .fatal => .fatal
    | .diverge => .diverge
  else .ok st
termination_by 8 - j

/-- The outer loop `for ; len >= 8; len = len - 8 { inner loop }`; returns the final
`len` with the state. -/
def outerLoop (byteStr : ByteStr) (len : Nat) (st : HashState) : Res (Nat × HashState) :=
  if 8 ≤ len then
    match innerLoop byteStr 0 st with
    | .ok st1 => outerLoop byteStr (len - 8) st1
    | .panic => .panic
    | .fatal => .fatal
    | .diverge => .diverge
  else .ok (len, st)
termination_by len

/-- The remainder loop `for j := len; j >= 1; j-- { body }`. -/
def remainderLoop (byteStr : ByteStr) : Nat → HashState → Res HashState
  | 0, st => .ok st
  | j + 1, st =>
    match readByte byteStr st with
    | .ok st1 => remainderLoop byteStr j st1
    | .panic => .panic
    | .fatal => .fatal
    | .diverge => .diverge

/-- The two loops of `djbx33a`, from `hash = 5381`, `i = 0`. -/
def djbx33aLoops (byteStr : ByteStr) : Res HashState :=
  match outerLoop byteStr byteStr.length { hash := 5381, i := 0, reads := [] } with
  | .ok (len, st) => remainderLoop byteStr len st
  | .panic => .panic
  | .fatal => .fatal
  | .diverge => .diverge

/-- The function `djbx33a`. `uintSize` is `unsafe.Sizeof(uint(0))`, the size in bytes of
the platform's `uint` (8 on 64-bit targets, 4 on 32-bit targets). -/
def djbx33a (uintSize : Nat) (byteStr : ByteStr) : Res Nat :=
  match djbx33aLoops byteStr with
  | .ok st => if uintSize = 8 then .ok (st.hash ||| (1 <<< 63)) else .ok (st.hash ||| (1 <<< 31))
  | .panic => .panic
  | .fatal => .fatal
  | .diverge => .diverge

/-- The reference "times 33 with addition" accumulation: from 5381, each byte in order
replaces `h` by `(h * 33 + b) mod 2 ^ 64`. -/
def times33 (s : ByteStr) : Nat :=
  s.foldl (fun h b => (h * 33 + b.val) % 2 ^ 64) 5381

/-- The value `djbx33a` returns for a string: the reference hash with the platform's bit
set. -/
def hashValue (uintSize : Nat) (byteStr : ByteStr) : Nat :=
  times33 byteStr ||| (if uintSize = 8 then 2 ^ 63 else 2 ^ 31)

/-! ## SourceIndexBuilder: `myMap`, `makeMap` -/

/-- The type `myMap` (`map[uint64][]string`), as a list of key/value entries. -/
abbrev myMap := List (Nat × List ByteStr)

/-- The comma-ok test `_, ok := m[k]`. -/
def mapHas : myMap → Nat → Bool
  | [], _ => false
  | (k1, _) :: rest, k => if k1 = k then true else mapHas rest k

/-- The map read `m[k]`: the stored slice, or the nil slice for an absent key. -/
def mapGet : myMap → Nat → List ByteStr
  | [], _ => []
  | (k1, v) :: rest, k => if k1 = k then v else mapGet rest k

/-- The map write `m[k] = v`: replaces the entry of `k`, or adds one. -/
def mapSet : myMap → Nat → List ByteStr → myMap
  | [], k, v => [(k, v)]
  | (k1, v1) :: rest, k, v => if k1 = k then (k1, v) :: rest else (k1, v1) :: mapSet rest k v

/-- The keys of a map. -/
def mapKeys (m : myMap) : List Nat := m.map Prod.fst

/-- Local variables `m` and `hash_ar` of `makeMap`. -/
structure MapState where
  m : myMap
  hash_ar : List Nat
  deriving DecidableEq

/-- The body of the loop `for fileName := range c` of `makeMap`. `log.Fatal` ends the
process, so the `append` written after it is never executed. -/
def makeMapStep (uintSize : Nat) (st : MapState) (fileName : ByteStr) : Res MapState :=
  match djbx33a uintSize fileName with
  | .ok hash =>
    if mapHas st.m hash then .fatal
    else .ok { m := mapSet st.m hash [fileName], hash_ar := st.hash_ar ++ [hash] }
  | .panic => .panic
  | .fatal => .fatal
  | .diverge => .diverge

/-- The loop `for fileName := range c` over the paths received from the channel. -/
def makeMapLoop (uintSize : Nat) : List ByteStr → MapState → Res MapState
  | [], st => .ok st
  | fileName :: rest, st =>
    match makeMapStep uintSize st fileName with
    | .ok st1 => makeMapLoop uintSize rest st1
    | .panic => .panic
    | .fatal => .fatal
    | .diverge => .diverge

/-- The call `sort.Sort(hash_ar)` of the Go standard library with the `Less` of
`myUintArray` (`arr[i] < arr[j]`): the ascending rearrangement of the slice. -/
def sortSort (arr : List Nat) : List Nat := arr.insertionSort (fun a b => a ≤ b)

/-- The function `makeMap`, on the sequence `files` of paths that `allFiles` sends
through the channel for the root directory. -/
def makeMap (uintSize : Nat) (files : List ByteStr) : Res (List Nat × myMap) :=
  match makeMapLoop uintSize files { m := [], hash_ar := [] } with
  | .ok st => .ok (sortSort st.hash_ar, st.m)
  | .panic => .panic
  | .fatal => .fatal
  | .diverge => .diverge

/-! ## DispatchTreeGenerator: text level -/

/-- The function `s`: a space repeated `n` times. -/
def s (n : Nat) : ByteStr := List.replicate n 32

/-- The function `ifThenElse`. -/
def ifThenElse (ifc ifb elseifc elseifb elseb : ByteStr) (indent : Nat) : ByteStr :=
  (s indent ++ lit "if (" ++ ifc ++ lit ") \x7b\n")
    ++ ifb
    ++ (s indent ++ lit "\x7d else if (" ++ elseifc ++ lit ") \x7b\n")
    ++ elseifb
    ++ (s indent ++ lit "\x7d else \x7b\n")
    ++ elseb
    ++ (s indent ++ lit "\x7d\n")

/-- The function `ifThen`. -/
def ifThen (ifc ifb elseb : ByteStr) (indent : Nat) : ByteStr :=
  (s indent ++ lit "if (" ++ ifc ++ lit ") \x7b\n")
    ++ ifb
    ++ (s indent ++ lit "\x7d else \x7b\n")
    ++ elseb
    ++ (s indent ++ lit "\x7d\n")

/-- The function `eq`. -/
def eq (rhs : Nat) : ByteStr := lit "hash == " ++ decimal rhs

/-- The function `lt`. -/
def lt (rhs : Nat) : ByteStr := lit "hash < " ++ decimal rhs

/-- The two lines written by `foundHash` for the file `file`. -/
def foundHashText (hash : Nat) (file : ByteStr) (indent : Nat) : ByteStr :=
  (s indent ++ lit "// hash == " ++ decimal hash ++ lit "\n")
    ++ (s indent ++ lit "return ZEND_USER_OPCODE_DISPATCH; //### " ++ file ++ lit "\n")

/-- The function `foundHash`: `matchingFiles[0]` panics on an empty slice. -/
def foundHash (hash : Nat) (matchingFiles : List ByteStr) (indent : Nat) : Res ByteStr :=
  match index matchingFiles 0 with
  | .ok file => .ok (foundHashText hash file indent)
  | .panic => .panic
  | .fatal => .fatal
  | .diverge => .diverge

/-- The function `generateBreakHelper`, with a budget `fuel` for the depth of the
recursion. Arguments are evaluated left to right, as Go does. -/
def generateBreakHelper (fuel : Nat) (arr : List Nat) (m : myMap) (low high : Int)
    (indent : Nat) : Res ByteStr :=
  match fuel with
  | 0 => .diverge
  | fuel + 1 =>
    if high = low then
      (index arr low).bind fun h => foundHash h (mapGet m h) indent
    else
      let mid : Int := (high + low).tdiv 2
      if mid = low then
        (index arr mid).bind fun hm =>
        (foundHash hm (mapGet m hm) (indent + 4)).bind fun ifb =>
        (index arr high).bind fun hh =>
        (foundHash hh (mapGet m hh) (indent + 4)).bind fun elseb =>
        .ok (ifThen (eq hm) ifb elseb indent)
      else
        (index arr mid).bind fun hm =>
        (foundHash hm (mapGet m hm) (indent + 4)).bind fun ifb =>
        (generateBreakHelper fuel arr m low mid (indent + 4)).bind fun elseifb =>
        (generateBreakHelper fuel arr m (mid + 1) high (indent + 4)).bind fun elseb =>
        .ok (ifThenElse (eq hm) ifb (lt hm) elseifb elseb indent)

/-- The function `generateBreakFileBody`. The recursion of the helper on a range of
`len` elements is at most `len` deep, which is the budget given here. -/
def generateBreakFileBody (arr : List Nat) (m : myMap) : Res ByteStr :=
  generateBreakHelper (arr.length + 1) arr m 0 ((arr.length : Int) - 1) 4

/-! ## DispatchTreeGenerator: structure of the generated text -/

/-- A condition written by `eq` or `lt`. -/
inductive Cond where
  | eq (rhs : Nat) : Cond
  | lt (rhs : Nat) : Cond
  deriving DecidableEq

/-- The text of a condition. -/
def Cond.render : Cond → ByteStr
  | .eq rhs => Dontbug.eq rhs
  | .lt rhs => Dontbug.lt rhs

/-- The statements the generator writes, one constructor per writing function. -/
inductive Code where
  /-- the leaf of `foundHash`, with `file = matchingFiles[0]` -/
  | foundHash (hash : Nat) (file : ByteStr) (indent : Nat) : Code
  /-- the statement of `ifThen` -/
  | ifThen (ifc : Cond) (ifb elseb : Code) (indent : Nat) : Code
  /-- the statement of `ifThenElse` -/
  | ifThenElse (ifc : Cond) (ifb : Code) (elseifc : Cond) (elseifb elseb : Code)
      (indent : Nat) : Code
  deriving DecidableEq

/-- The text of a statement, through the writing functions of the source. -/
def Code.render : Code → ByteStr
  | .foundHash hash file indent => foundHashText hash file indent
  | .ifThen ifc ifb elseb indent => Dontbug.ifThen ifc.render ifb.render elseb.render indent
  | .ifThenElse ifc ifb elseifc elseifb elseb indent =>
    Dontbug.ifThenElse ifc.render ifb.render elseifc.render elseifb.render elseb.render indent

/-- The leaf statement of `foundHash`, as structure. -/
def foundHashCode (hash : Nat) (matchingFiles : List ByteStr) (indent : Nat) : Res Code :=
  match index matchingFiles 0 with
  | .ok file => .ok (Code.foundHash hash file indent)
  | .panic => .panic
  | .fatal => .fatal
  | .diverge => .diverge

/-- The function `generateBreakHelper`, returning the structure of its text. -/
def generateBreakHelperCode (fuel : Nat) (arr : List Nat) (m : myMap) (low high : Int)
    (indent : Nat) : Res Code :=
  match fuel with
  | 0 => .diverge
  | fuel + 1 =>
    if high = low then
      (index arr low).bind fun h => foundHashCode h (mapGet m h) indent
    else
      let mid : Int := (high + low).tdiv 2
      if mid = low then
        (index arr mid).bind fun hm =>
        (foundHashCode hm (mapGet m hm) (indent + 4)).bind fun ifb =>
        (index arr high).bind fun hh =>
        (foundHashCode hh (mapGet m hh) (indent + 4)).bind fun elseb =>
        .ok (Code.ifThen (Cond.eq hm) ifb elseb indent)
      else
        (index arr mid).bind fun hm =>
        (foundHashCode hm (mapGet m hm) (indent + 4)).bind fun ifb =>
        (generateBreakHelperCode fuel arr m low mid (indent + 4)).bind fun elseifb =>
        (generateBreakHelperCode fuel arr m (mid + 1) high (indent + 4)).bind fun elseb =>
        .ok (Code.ifThenElse (Cond.eq hm) ifb (Cond.lt hm) elseifb elseb indent)

/-- The function `generateBreakFileBody`, returning the structure of its text. -/
def generateBreakFileBodyCode (arr : List Nat) (m : myMap) : Res Code :=
  generateBreakHelperCode (arr.length + 1) arr m 0 ((arr.length : Int) - 1) 4

/-! ## Evaluating the generated dispatch routine -/

/-- A leaf of the dispatch routine: the hash named in its `// hash == ...` line and the
path of its `//###` marker. -/
structure Leaf where
  hash : Nat
  marker : ByteStr
  deriving DecidableEq

/-- The leaves of a statement, in the order of the text. -/
def Code.leaves : Code → List Leaf
  | .foundHash hash file _ => [{ hash := hash, marker := file }]
  | .ifThen _ ifb elseb _ => ifb.leaves ++ elseb.leaves
  | .ifThenElse _ ifb _ elseifb elseb _ => ifb.leaves ++ elseifb.leaves ++ elseb.leaves

/-- The calls made by `generateBreakHelper` on a range, as a relation between the range
`[low, high]`, the indentation and the structure returned: one rule per branch of the
function. -/
inductive Gen (arr : List Nat) (m : myMap) : Int → Int → Nat → Code → Prop where
  | leaf (low : Int) (indent : Nat) (h : Nat) (file : ByteStr) :
      index arr low = .ok h → index (mapGet m h) 0 = .ok file →
      Gen arr m low low indent (.foundHash h file indent)
  | two (low high : Int) (indent : Nat) (hm : Nat) (fm : ByteStr) (hh : Nat) (fh : ByteStr) :
      high ≠ low → (high + low).tdiv 2 = low →
      index arr low = .ok hm → index (mapGet m hm) 0 = .ok fm →
      index arr high = .ok hh → index (mapGet m hh) 0 = .ok fh →
      Gen arr m low high indent
        (.ifThen (.eq hm) (.foundHash hm fm (indent + 4)) (.foundHash hh fh (indent + 4)) indent)
  | three (low high : Int) (indent : Nat) (hm : Nat) (fm : ByteStr) (l r : Code) :
      high ≠ low → (high + low).tdiv 2 ≠ low →
      index arr ((high + low).tdiv 2) = .ok hm → index (mapGet m hm) 0 = .ok fm →
      Gen arr m low ((high + low).tdiv 2) (indent + 4) l →
      Gen arr m ((high + low).tdiv 2 + 1) high (indent + 4) r →
      Gen arr m low high indent
        (.ifThenElse (.eq hm) (.foundHash hm fm (indent + 4)) (.lt hm) l r indent)

/-! ## CommandEngine: data model

The file `engine/other_commands.go` uses types, response formats and helper functions
declared elsewhere in the package. The formats are kept as the constructors of
`Response`; the rest is modelled from the design document, each piece marked so. -/

/-- Modelled from the spec: the type of `es.status`, "one of {starting, running, break,
stopped}"; `statusStopped` is the constant `handleStop` assigns. -/
inductive EngineStatus where
  | statusStarting : EngineStatus
  | statusRunning : EngineStatus
  | statusBreak : EngineStatus
  | statusStopped : EngineStatus
  deriving DecidableEq

/-- Modelled from the spec: the type `dbgpCmd`, "a command name, a monotonically
increasing sequence number supplied by the client, and the raw full command text". -/
structure dbgpCmd where
  Command : ByteStr
  Sequence : Int
  FullCommand : ByteStr
  deriving DecidableEq

/-- Modelled from the spec: a BreakpointRecord, with its native breakpoint identifier,
whether the IDE set it (a PHP breakpoint) or the engine set it for its own stepping, its
(file, line) identity and its enabled/disabled flag. -/
structure Breakpoint where
  id : Nat
  php : Bool
  filename : ByteStr
  lineno : Int
  enabled : Bool
  deriving DecidableEq

/-- Modelled from the spec: the type `engineState`, which "holds current run status,
reason, the native debugger session handle, and the active breakpoint set". The state of
the native debugger session is the field `gdbSession`, of a type `G` left open. -/
structure engineState (G : Type) where
  status : EngineStatus
  reason : ByteStr
  gdbSession : G
  breakpoints : List Breakpoint

/-- A response payload: one constructor per format (`gPropertySetXmlResponseFormat`,
`gStdFdXmlResponseFormat`, `gStatusXmlResponseFormat`, `gRunOrStepBreakXmlResponseFormat`)
holding the arguments given to `fmt.Sprintf`, and one for the text a diversion session
returns. -/
inductive Response where
  | propertySet (sequence : Int) : Response
  | stdFd (sequence : Int) (fdName : ByteStr) : Response
  | status (sequence : Int) (status : EngineStatus) (reason : ByteStr) : Response
  | runOrStepBreak (command : ByteStr) (sequence : Int) (filename : ByteStr) (lineno : Int) :
      Response
  | diversion (result : ByteStr) : Response
  deriving DecidableEq

/-- The native debugger (external): what it answers and how its session state moves, for
a session state of type `G`. -/
structure Gdb (G : Type) where
  /-- printing an expression as a string: the answer and the session afterwards -/
  printString : G → ByteStr → ByteStr × G
  /-- printing an expression as a number: the answer and the session afterwards -/
  printInt : G → ByteStr → Int × G
  /-- resuming (reverse or forward) with the given breakpoints: the identifier of the
  breakpoint stopped at, whether it is a user breakpoint, and the session afterwards -/
  resume : G → Bool → List Breakpoint → (ByteStr × Bool) × G
  /-- moving to the master dispatch location (reverse or forward) -/
  gotoMaster : G → Bool → List Breakpoint → G

/-! ## CommandEngine: helpers declared outside `other_commands.go` -/

/-- Modelled from the spec: `xSlashSgdb`, which asks the native debugger session for the
value of an expression as a string. -/
def xSlashSgdb {G : Type} (gdb : Gdb G) (gdbSession : G) (expression : ByteStr) : ByteStr × G :=
  gdb.printString gdbSession expression

/-- Modelled from the spec: `xSlashDgdb`, which asks the native debugger session for the
value of an expression as a number. -/
def xSlashDgdb {G : Type} (gdb : Gdb G) (gdbSession : G) (expression : ByteStr) : Int × G :=
  gdb.printInt gdbSession expression

/-- Modelled from the spec: `getEnabledPhpBreakpoints`, the identifiers of "all currently
enabled IDE breakpoints". -/
def getEnabledPhpBreakpoints {G : Type} (es : engineState G) : List Nat :=
  (es.breakpoints.filter fun b => b.php && b.enabled).map Breakpoint.id

/-- Modelled from the spec: `disableGdbBreakpoints`, which disables the listed breakpoints
"at the native-debugger level". -/
def disableGdbBreakpoints {G : Type} (es : engineState G) (bpList : List Nat) : engineState G :=
  { es with breakpoints := es.breakpoints.map fun b =>
      if b.id ∈ bpList then { b with enabled := false } else b }

/-- Modelled from the spec: `enableGdbBreakpoints`, which re-enables the listed
breakpoints. -/
def enableGdbBreakpoints {G : Type} (es : engineState G) (bpList : List Nat) : engineState G :=
  { es with breakpoints := es.breakpoints.map fun b =>
      if b.id ∈ bpList then { b with enabled := true } else b }

/-- Modelled from the spec: `disableAllGdbBreakpoints`, which "suspends all
currently-enabled IDE breakpoints (against the native debugger)". -/
def disableAllGdbBreakpoints {G : Type} (es : engineState G) : engineState G :=
  disableGdbBreakpoints es (getEnabledPhpBreakpoints es)

/-- Modelled from the spec: `gotoMasterBpLocation`, which repositions execution "to a
fixed internal master dispatch location"; it moves the native session only. -/
def gotoMasterBpLocation {G : Type} (gdb : Gdb G) (es : engineState G) (reverse : Bool) :
    engineState G :=
  { es with gdbSession := gdb.gotoMaster es.gdbSession reverse es.breakpoints }

/-- Modelled from the spec: `continueExecution`, which resumes "native execution in the
requested direction (forward or reverse) until either a user breakpoint is hit or the
native debugger otherwise stops" and reports the breakpoint stopped at and whether it is
a user breakpoint; it moves the native session only. -/
def continueExecution {G : Type} (gdb : Gdb G) (es : engineState G) (reverse : Bool) :
    (ByteStr × Bool) × engineState G :=
  let stop := gdb.resume es.gdbSession reverse es.breakpoints
  (stop.1, { es with gdbSession := stop.2 })

/-- Modelled from the spec: `setPhpStackLevelBreakpointInGdb`, which sets "a temporary
native breakpoint conditioned on that exact depth" and returns its identifier, an
identifier no breakpoint of the set has. -/
def setPhpStackLevelBreakpointInGdb {G : Type} (es : engineState G) (level : Int) :
    Nat × engineState G :=
  let id := (es.breakpoints.map Breakpoint.id).foldl max 0 + 1
  (id, { es with breakpoints := es.breakpoints ++
      [{ id := id, php := false, filename := [], lineno := level, enabled := true }] })

/-- Modelled from the spec: `removeGdbBreakpoint`, which removes the breakpoint with the
given identifier. -/
def removeGdbBreakpoint {G : Type} (es : engineState G) (id : Nat) : engineState G :=
  { es with breakpoints := es.breakpoints.filter fun b => b.id ≠ id }

/-! ## CommandEngine: the handlers of `other_commands.go`

A handler that receives `es *engineState` returns the state after the call with its
response. -/

/-- The function `handlePropertySet`. -/
def handlePropertySet {G : Type} (es : engineState G) (dCmd : dbgpCmd) :
    engineState G × Response :=
  (es, .propertySet dCmd.Sequence)

/-- The function `handleStdFd`. -/
def handleStdFd {G : Type} (es : engineState G) (dCmd : dbgpCmd) (fdName : ByteStr) :
    engineState G × Response :=
  (es, .stdFd dCmd.Sequence fdName)

/-- The function `handleStop`. -/
def handleStop {G : Type} (es : engineState G) (dCmd : dbgpCmd) : engineState G × Response :=
  let es1 : engineState G := { es with status := .statusStopped }
  (es1, .status dCmd.Sequence es1.status es1.reason)

/-- The function `diversionSessionCmd`. -/
def diversionSessionCmd {G : Type} (gdb : Gdb G) (es : engineState G) (command : ByteStr) :
    engineState G × ByteStr :=
  let result := xSlashSgdb gdb es.gdbSession
    (lit "dontbug_xdebug_cmd(\"" ++ command ++ lit "\")")
  ({ es with gdbSession := result.2 }, result.1)

/-- The function `handleInDiversionSessionStandard`. -/
def handleInDiversionSessionStandard {G : Type} (gdb : Gdb G) (es : engineState G)
    (dCmd : dbgpCmd) : engineState G × Response :=
  let r := diversionSessionCmd gdb es dCmd.FullCommand
  (r.1, .diversion r.2)

/-- The function `handleInDiversionSessionWithNoGdbBpts`. -/
def handleInDiversionSessionWithNoGdbBpts {G : Type} (gdb : Gdb G) (es : engineState G)
    (dCmd : dbgpCmd) : engineState G × Response :=
  let bpList := getEnabledPhpBreakpoints es
  let es1 := disableAllGdbBreakpoints es
  let r := diversionSessionCmd gdb es1 dCmd.FullCommand
  let es2 := enableGdbBreakpoints r.1 bpList
  (es2, .diversion r.2)

/-- The first block of `handleRun`: `if reverse { ... }`. -/
def handleRunStepBack {G : Type} (gdb : Gdb G) (es : engineState G) (reverse : Bool) :
    engineState G :=
  if reverse then
    let bpList := getEnabledPhpBreakpoints es
    let es1 := disableGdbBreakpoints es bpList
    let es2 := gotoMasterBpLocation gdb es1 true
    enableGdbBreakpoints es2 bpList
  else es

/-- The block `if !reverse { ... } else { ... }` of `handleRun`, after a user breakpoint
was hit. -/
def handleRunReposition {G : Type} (gdb : Gdb G) (es : engineState G) (reverse : Bool) :
    engineState G :=
  if !reverse then
    gotoMasterBpLocation gdb es false
  else
    let level := xSlashDgdb gdb es.gdbSession (lit "level")
    let es1 : engineState G := { es with gdbSession := level.2 }
    let set := setPhpStackLevelBreakpointInGdb es1 level.1
    let cont := continueExecution gdb set.2 true
    let es2 := removeGdbBreakpoint cont.2 set.1
    gotoMasterBpLocation gdb es2 false

/-- The function `handleRun`. `log.Fatal` ends the process: outcome `fatal`. -/
def handleRun {G : Type} (gdb : Gdb G) (es : engineState G) (dCmd : dbgpCmd) (reverse : Bool) :
    Res (engineState G × Response) :=
  let es1 := handleRunStepBack gdb es reverse
  let cont := continueExecution gdb es1 reverse
  let userBreakPointHit := cont.1.2
  let es2 := cont.2
  if userBreakPointHit then
    let bpList := getEnabledPhpBreakpoints es2
    let es3 := disableGdbBreakpoints es2 bpList
    let es4 := handleRunReposition gdb es3 reverse
    let filename := xSlashSgdb gdb es4.gdbSession (lit "filename")
    let phpLineno := xSlashDgdb gdb filename.2 (lit "lineno")
    let es5 : engineState G := { es4 with gdbSession := phpLineno.2 }
    let es6 := enableGdbBreakpoints es5 bpList
    .ok (es6, .runOrStepBreak (lit "run") dCmd.Sequence filename.1 phpLineno.1)
  else .fatal

/-- The function `handleStatus`. -/
def handleStatus {G : Type} (es : engineState G) (dCmd : dbgpCmd) : engineState G × Response :=
  (es, .status dCmd.Sequence es.status es.reason)

/-- Inside `handleRun`: the value of `userBreakPointHit`, what the resume step in the
requested direction reports. -/
def handleRunHit {G : Type} (gdb : Gdb G) (es : engineState G) (reverse : Bool) : Bool :=
  (continueExecution gdb (handleRunStepBack gdb es reverse) reverse).1.2

/-- Inside `handleRun`: the engine state when the resume step has returned. -/
def handleRunResumed {G : Type} (gdb : Gdb G) (es : engineState G) (reverse : Bool) :
    engineState G :=
  (continueExecution gdb (handleRunStepBack gdb es reverse) reverse).2

/-- Inside `handleRun`, after a user breakpoint was hit: the engine state when the enabled
IDE breakpoints have been disabled and execution repositioned, right before `filename`
and `lineno` are read. -/
def handleRunRepositioned {G : Type} (gdb : Gdb G) (es : engineState G) (reverse : Bool) :
    engineState G :=
  handleRunReposition gdb
    (disableGdbBreakpoints (handleRunResumed gdb es reverse)
      (getEnabledPhpBreakpoints (handleRunResumed gdb es reverse)))
    reverse

/-- A call of one of the handlers of `other_commands.go`. -/
inductive HandlerCall where
  | status (dCmd : dbgpCmd) : HandlerCall
  | propertySet (dCmd : dbgpCmd) : HandlerCall
  | stdFd (dCmd : dbgpCmd) (fdName : ByteStr) : HandlerCall
  | diversionStandard (dCmd : dbgpCmd) : HandlerCall
  | diversionWithNoGdbBpts (dCmd : dbgpCmd) : HandlerCall
  | run (dCmd : dbgpCmd) (reverse : Bool) : HandlerCall
  | stop (dCmd : dbgpCmd) : HandlerCall
  deriving DecidableEq

/-- Whether the call is a call of `handleRun`. -/
def HandlerCall.isRun : HandlerCall → Bool
  | .run _ _ => true
  | _ => false

/-- Making one call on an engine state. -/
def HandlerCall.handle {G : Type} (gdb : Gdb G) (es : engineState G) :
    HandlerCall → Res (engineState G × Response)
  | .status dCmd => .ok (handleStatus es dCmd)
  | .propertySet dCmd => .ok (handlePropertySet es dCmd)
  | .stdFd dCmd fdName => .ok (handleStdFd es dCmd fdName)
  | .diversionStandard dCmd => .ok (handleInDiversionSessionStandard gdb es dCmd)
  | .diversionWithNoGdbBpts dCmd => .ok (handleInDiversionSessionWithNoGdbBpts gdb es dCmd)
  | .run dCmd reverse => handleRun gdb es dCmd reverse
  | .stop dCmd => .ok (handleStop es dCmd)

/-- Making a sequence of calls, one after the other, each of which returns: the engine
state after the last one. -/
def handleAll {G : Type} (gdb : Gdb G) : List HandlerCall → engineState G → Res (engineState G)
  | [], es => .ok es
  | call :: rest, es =>
    match call.handle gdb es with
    | .ok r => handleAll gdb rest r.1
    | .panic => .panic
    | .fatal => .fatal
    | .diverge => .diverge

/-- A native debugger over a one-state session, every resume of which stops at a user
breakpoint; used in the examples. -/
def gdbAlwaysHit : Gdb Unit where
  printString := fun g _ => ([], g)
  printInt := fun g _ => (0, g)
  resume := fun g _ _ => (([], true), g)
  gotoMaster := fun g _ _ => g

/-- An engine state in status `starting` with one enabled IDE breakpoint; used in the
examples. -/
def esStarting : engineState Unit where
  status := .statusStarting
  reason := []
  gdbSession := ()
  breakpoints := [{ id := 1, php := true, filename := [97], lineno := 10, enabled := true }]

/-- The sequence number a response carries, when its format has one. -/
def Response.sequence : Response → Option Int
  | .propertySet sequence => some sequence
  | .stdFd sequence _ => some sequence
  | .status sequence _ _ => some sequence
  | .runOrStepBreak _ sequence _ _ => some sequence
  | .diversion _ => none

/-- Modelled from the spec: the success indication written in a response format, which
is outside `other_commands.go`. The property-set response is "sequence number, fixed
failure indication" and the stdio response "sequence number, stream name, fixed failure
indication"; the other formats carry no such indication. -/
def Response.success : Response → Option Bool
  | .propertySet _ => some false
  | .stdFd _ _ => some false
  | _ => none

/-- Whether the call is a call of `handleStop`. -/
def HandlerCall.isStop : HandlerCall → Bool
  | .stop _ => true
  | _ => false

/-- A native debugger over a one-state session, no resume of which stops at a user
breakpoint; used in the examples. -/
def gdbNeverHit : Gdb Unit where
  printString := fun g _ => ([], g)
  printInt := fun g _ => (0, g)
  resume := fun g _ _ => (([], false), g)
  gotoMaster := fun g _ _ => g

/-- A native debugger whose session state is the list of requests it has served, and
which answers a print request with the number of requests served before it; every resume
stops at a user breakpoint. Used in the examples. -/
def gdbLog : Gdb (List ByteStr) where
  printString := fun g e => (decimal g.length, g ++ [e])
  printInt := fun g e => ((g.length : Int), g ++ [e])
  resume := fun g reverse _ => (([], true), g ++ [if reverse then lit "reverse" else lit "forward"])
  gotoMaster := fun g reverse _ => g ++ [if reverse then lit "master-reverse" else lit "master"]

/-- An engine state over `gdbLog` with an enabled IDE breakpoint, a disabled IDE
breakpoint and an enabled internal breakpoint; used in the examples. -/
def esLog : engineState (List ByteStr) where
  status := .statusBreak
  reason := [111, 107]
  gdbSession := []
  breakpoints :=
    [{ id := 1, php := true, filename := [97], lineno := 10, enabled := true },
     { id := 2, php := true, filename := [97], lineno := 20, enabled := false },
     { id := 3, php := false, filename := [], lineno := 0, enabled := true }]

/-! ## Properties of `djbx33a` -/

theorem hashStep_eq (h : Nat) (b : Fin 256) : hashStep h b = (h * 33 + b.val) % 2 ^ 64 := by
  unfold hashStep
  rw [Nat.shiftLeft_eq]
  omega

theorem remainderLoop_add (s : ByteStr) (a b : Nat) (st : HashState) :
    remainderLoop s (a + b) st = (remainderLoop s a st).bind (remainderLoop s b) := by
  induction a generalizing st with
  | zero => simp [remainderLoop, Res.bind]
  | succ a ih =>
    rw [Nat.succ_add]
    simp only [remainderLoop]
    cases readByte s st <;> simp [Res.bind, ih]

theorem innerLoop_eq (s : ByteStr) (j : Nat) (hj : j ≤ 8) (st : HashState) :
    innerLoop s j st = remainderLoop s (8 - j) st := by
  generalize h : 8 - j = k
  induction k generalizing j st with
  | zero =>
    have : j = 8 := by omega
    subst this
    rw [innerLoop]
    simp [remainderLoop]
  | succ k ih =>
    rw [innerLoop]
    have hlt : j < 8 := by omega
    simp only [hlt, if_true, remainderLoop]
    cases readByte s st with
    | ok st1 => exact ih (j + 1) (by omega) st1 (by omega)
    | panic => rfl
    | fatal => rfl
    | diverge => rfl

theorem outerLoop_eq (s : ByteStr) (len : Nat) (st : HashState) :
    outerLoop s len st
      = (remainderLoop s (len - len % 8) st).bind (fun st1 => Res.ok (len % 8, st1)) := by
  induction len using Nat.strong_induction_on generalizing st with
  | _ len ih =>
    rw [outerLoop]
    by_cases h8 : 8 ≤ len
    · simp only [h8, if_true]
      rw [innerLoop_eq s 0 (by omega) st]
      have e : len - len % 8 = 8 + ((len - 8) - (len - 8) % 8) := by omega
      rw [e, remainderLoop_add]
      cases remainderLoop s (8 - 0) st with
      | ok st1 =>
        have e2 : (len - 8) % 8 = len % 8 := by omega
        simp only [Res.bind]
        rw [ih (len - 8) (by omega) st1, e2]
        rfl
      | panic => rfl
      | fatal => rfl
      | diverge => rfl
    · have e : len - len % 8 = 0 := by omega
      have e2 : len % 8 = len := by omega
      simp [h8, e, e2, remainderLoop, Res.bind]

theorem djbx33aLoops_eq (s : ByteStr) :
    djbx33aLoops s = remainderLoop s s.length { hash := 5381, i := 0, reads := [] } := by
  unfold djbx33aLoops
  rw [outerLoop_eq]
  have e : s.length = (s.length - s.length % 8) + s.length % 8 := by omega
  conv_rhs => rw [e, remainderLoop_add]
  cases remainderLoop s (s.length - s.length % 8) { hash := 5381, i := 0, reads := [] } <;>
    simp [Res.bind]

theorem remainderLoop_run (s : ByteStr) (n : Nat) (st : HashState) (hb : st.i + n ≤ s.length) :
    remainderLoop s n st
      = Res.ok { hash := ((s.drop st.i).take n).foldl (fun h b => (h * 33 + b.val) % 2 ^ 64) st.hash,
                 i := st.i + n,
                 reads := st.reads ++ List.range' st.i n } := by
  induction n generalizing st with
  | zero => simp [remainderLoop]
  | succ n ih =>
    have hi : st.i < s.length := by omega
    have hd : s.drop st.i = s[st.i] :: s.drop (st.i + 1) := (List.drop_eq_getElem_cons hi)
    simp only [remainderLoop, readByte, List.getElem?_eq_getElem hi]
    rw [ih _ (by show st.i + 1 + n ≤ s.length; omega)]
    simp only [hd, hashStep_eq, List.range'_succ, List.take_succ_cons, List.foldl_cons,
      List.append_assoc, List.singleton_append, Nat.add_assoc, Nat.add_comm 1 n]

theorem djbx33aLoops_run (s : ByteStr) :
    djbx33aLoops s = Res.ok { hash := times33 s, i := s.length, reads := List.range s.length } := by
  rw [djbx33aLoops_eq, remainderLoop_run s s.length _ (by simp)]
  simp [times33, List.range_eq_range']

theorem djbx33a_run (w : Nat) (s : ByteStr) :
    djbx33a w s = Res.ok (times33 s ||| (if w = 8 then 2 ^ 63 else 2 ^ 31)) := by
  unfold djbx33a
  rw [djbx33aLoops_run]
  by_cases h : w = 8 <;> simp [h, Nat.shiftLeft_eq]

theorem times33_lt (s : ByteStr) : times33 s < 2 ^ 64 := by
  unfold times33
  induction s using List.reverseRecOn with
  | nil => decide
  | append_singleton l a _ =>
    rw [List.foldl_append]
    exact Nat.mod_lt _ (by decide)

/-- C1 (as amended): on every platform `djbx33a` returns, for every byte string, the
"times 33 with addition" hash (from 5381, `h := (h * 33 + b) mod 2 ^ 64` per byte, in
order) with one bit set by bitwise OR: bit 63 when the platform `uint` is 8 bytes wide,
bit 31 otherwise. The loops read the indices `0, 1, ..., len - 1` once each, in order,
none out of range. On an 8-byte platform the empty string hashes to `5381 + 2 ^ 63`. -/
theorem djbx33a_is_times33 (uintSize : Nat) (byteStr : ByteStr) :
    djbx33a uintSize byteStr
        = Res.ok (times33 byteStr ||| (if uintSize = 8 then 2 ^ 63 else 2 ^ 31))
      ∧ djbx33aLoops byteStr
        = Res.ok { hash := times33 byteStr, i := byteStr.length,
                   reads := List.range byteStr.length }
      ∧ djbx33a 8 [] = Res.ok (5381 + 2 ^ 63) :=
  ⟨djbx33a_run uintSize byteStr, djbx33aLoops_run byteStr, by rw [djbx33a_run]; decide⟩

/-- C1, counterexample: where `uint` is 4 bytes wide the empty string hashes to
`5381 + 2 ^ 31`, which is not the reference hash with bit 63 set. -/
theorem djbx33a_uint32_empty :
    djbx33a 4 [] = Res.ok (5381 + 2 ^ 31)
      ∧ djbx33a 4 [] ≠ Res.ok (times33 [] ||| 2 ^ 63) := by
  rw [djbx33a_run]
  decide

/-- C2 (as amended): where the platform `uint` is 8 bytes wide, the value returned by
`djbx33a` for any string is a 64-bit value with bit 63 set, that is at least `2 ^ 63`;
on the other platforms it is a 64-bit value with bit 31 set. -/
theorem djbx33a_forced_bit (uintSize : Nat) (byteStr : ByteStr) :
    ∃ h, djbx33a uintSize byteStr = Res.ok h ∧ h < 2 ^ 64
      ∧ (if uintSize = 8 then h.testBit 63 = true ∧ 2 ^ 63 ≤ h else h.testBit 31 = true) := by
  refine ⟨_, djbx33a_run uintSize byteStr, ?_, ?_⟩
  · apply Nat.or_lt_two_pow (times33_lt byteStr)
    split <;> decide
  · by_cases hw : uintSize = 8
    · have hb : (times33 byteStr ||| 2 ^ 63).testBit 63 = true := by
        rw [Nat.testBit_or, Nat.testBit_two_pow_self, Bool.or_true]
      simp only [hw, if_true]
      exact ⟨hb, Nat.testBit_implies_ge hb⟩
    · simp only [hw, if_false]
      rw [Nat.testBit_or, Nat.testBit_two_pow_self, Bool.or_true]

/-- C2, counterexample: where `uint` is 4 bytes wide, the hash of the one-byte string
`"a"` is `2147661318`, below `2 ^ 63`. -/
theorem djbx33a_uint32_below :
    djbx33a 4 [97] = Res.ok 2147661318 ∧ ¬ (2 ^ 63 ≤ 2147661318) := by
  rw [djbx33a_run]
  decide

/-! ## The generator: text, structure and recursion -/

@[simp] theorem Res.ok_bind {α β : Type} (a : α) (f : α → Res β) : (Res.ok a).bind f = f a := rfl
@[simp] theorem Res.panic_bind {α β : Type} (f : α → Res β) : (Res.panic : Res α).bind f = .panic := rfl
@[simp] theorem Res.fatal_bind {α β : Type} (f : α → Res β) : (Res.fatal : Res α).bind f = .fatal := rfl
@[simp] theorem Res.diverge_bind {α β : Type} (f : α → Res β) :
    (Res.diverge : Res α).bind f = .diverge := rfl

theorem Res.bind_eq_ok {α β : Type} {x : Res α} {f : α → Res β} {b : β}
    (h : x.bind f = .ok b) : ∃ a, x = .ok a ∧ f a = .ok b := by
  cases x with
  | ok a => exact ⟨a, rfl, h⟩
  | panic => cases h
  | fatal => cases h
  | diverge => cases h

theorem index_eq_ok {α : Type} {xs : List α} {k : Int} {x : α} :
    index xs k = .ok x ↔ 0 ≤ k ∧ xs[k.toNat]? = some x := by
  unfold index
  by_cases hk : k < 0
  · simp only [hk, if_true]
    constructor
    · intro h; cases h
    · intro h; omega
  · simp only [hk, if_false]
    cases hx : xs[k.toNat]? with
    | none => simp
    | some y =>
      simp only [Res.ok.injEq, Option.some.injEq]
      constructor
      · intro h; exact ⟨by omega, h⟩
      · intro h; exact h.2

theorem index_in_range {α : Type} (xs : List α) (k : Int) (h0 : 0 ≤ k)
    (hk : k < (xs.length : Int)) : ∃ x, index xs k = .ok x ∧ x ∈ xs := by
  have hlt : k.toNat < xs.length := by omega
  refine ⟨xs[k.toNat], ?_, List.getElem_mem _⟩
  rw [index_eq_ok]
  exact ⟨h0, List.getElem?_eq_getElem hlt⟩

theorem foundHash_render (hash : Nat) (files : List ByteStr) (indent : Nat) :
    foundHash hash files indent = (foundHashCode hash files indent).mapOk Code.render := by
  unfold foundHash foundHashCode
  cases index files 0 <;> rfl

theorem mapOk_bind {α β γ : Type} (x : Res α) (f : α → Res β) (g : β → γ) :
    (x.bind f).mapOk g = x.bind (fun a => (f a).mapOk g) := by
  cases x <;> rfl

theorem bind_mapOk {α β γ : Type} (x : Res α) (f : β → Res γ) (g : α → β) :
    (x.mapOk g).bind f = x.bind (fun a => f (g a)) := by
  cases x <;> rfl

/-- The text returned by `generateBreakHelper` is the rendering of the structure. -/
theorem generateBreakHelper_render (fuel : Nat) (arr : List Nat) (m : myMap) (low high : Int)
    (indent : Nat) :
    generateBreakHelper fuel arr m low high indent
      = (generateBreakHelperCode fuel arr m low high indent).mapOk Code.render := by
  induction fuel generalizing low high indent with
  | zero => rfl
  | succ fuel ih =>
    simp only [generateBreakHelper, generateBreakHelperCode]
    split
    · simp only [mapOk_bind, foundHash_render]
    · split
      · simp only [mapOk_bind, foundHash_render, bind_mapOk]
        rfl
      · simp only [mapOk_bind, foundHash_render, bind_mapOk, ih]
        rfl

theorem generateBreakFileBody_render (arr : List Nat) (m : myMap) :
    generateBreakFileBody arr m = (generateBreakFileBodyCode arr m).mapOk Code.render :=
  generateBreakHelper_render _ arr m _ _ _

theorem foundHashCode_eq_ok {hash : Nat} {files : List ByteStr} {indent : Nat} {c : Code}
    (h : foundHashCode hash files indent = .ok c) :
    ∃ file, index files 0 = .ok file ∧ c = .foundHash hash file indent := by
  unfold foundHashCode at h
  cases hf : index files 0 with
  | ok file => rw [hf] at h; cases h; exact ⟨file, rfl, rfl⟩
  | panic => rw [hf] at h; cases h
  | fatal => rw [hf] at h; cases h
  | diverge => rw [hf] at h; cases h

/-- Every structure returned by the helper was built by the rules of `Gen`. -/
theorem generateBreakHelperCode_gen (fuel : Nat) (arr : List Nat) (m : myMap) (low high : Int)
    (indent : Nat) (code : Code)
    (h : generateBreakHelperCode fuel arr m low high indent = .ok code) :
    Gen arr m low high indent code := by
  induction fuel generalizing low high indent code with
  | zero => cases h
  | succ fuel ih =>
    simp only [generateBreakHelperCode] at h
    split at h
    · next heq =>
      subst heq
      obtain ⟨hv, h1, h2⟩ := Res.bind_eq_ok h
      obtain ⟨file, h3, rfl⟩ := foundHashCode_eq_ok h2
      exact Gen.leaf _ _ _ _ h1 h3
    · next hne =>
      split at h
      · next hmid =>
        obtain ⟨hm, h1, h⟩ := Res.bind_eq_ok h
        obtain ⟨ifb, h2, h⟩ := Res.bind_eq_ok h
        obtain ⟨hh, h3, h⟩ := Res.bind_eq_ok h
        obtain ⟨elseb, h4, h⟩ := Res.bind_eq_ok h
        obtain ⟨fm, h5, rfl⟩ := foundHashCode_eq_ok h2
        obtain ⟨fh, h6, rfl⟩ := foundHashCode_eq_ok h4
        cases h
        rw [hmid] at h1
        exact Gen.two _ _ _ _ _ _ _ hne hmid h1 h5 h3 h6
      · next hmid =>
        obtain ⟨hm, h1, h⟩ := Res.bind_eq_ok h
        obtain ⟨ifb, h2, h⟩ := Res.bind_eq_ok h
        obtain ⟨l, h3, h⟩ := Res.bind_eq_ok h
        obtain ⟨r, h4, h⟩ := Res.bind_eq_ok h
        obtain ⟨fm, h5, rfl⟩ := foundHashCode_eq_ok h2
        cases h
        exact Gen.three _ _ _ _ _ _ _ hne hmid h1 h5 (ih _ _ _ _ h3) (ih _ _ _ _ h4)

theorem tdiv_two (a : Int) (h : 0 ≤ a) : a.tdiv 2 = a / 2 :=
  Int.tdiv_eq_ediv h (by decide)

/-- The helper returns on every valid range whose elements all have a path, once the
budget exceeds the width of the range. -/
theorem generateBreakHelperCode_total (fuel : Nat) (arr : List Nat) (m : myMap)
    (low high : Int) (indent : Nat)
    (hm : ∀ h ∈ arr, mapGet m h ≠ [])
    (h0 : 0 ≤ low) (hlh : low ≤ high) (hlen : high < (arr.length : Int))
    (hfuel : high - low < (fuel : Int)) :
    ∃ code, generateBreakHelperCode fuel arr m low high indent = .ok code := by
  have leafOk : ∀ (k : Int) (ind : Nat), 0 ≤ k → k < (arr.length : Int) →
      ∃ hk file, index arr k = .ok hk ∧ foundHashCode hk (mapGet m hk) ind
        = .ok (.foundHash hk file ind) := by
    intro k ind hk0 hk1
    obtain ⟨x, hx, hmem⟩ := index_in_range arr k hk0 hk1
    have hne := hm x hmem
    cases hfs : mapGet m x with
    | nil => exact absurd hfs hne
    | cons f rest =>
      refine ⟨x, f, hx, ?_⟩
      simp [foundHashCode, index, hfs]
  induction fuel generalizing low high indent with
  | zero => omega
  | succ fuel ih =>
    simp only [generateBreakHelperCode]
    split
    · next heq =>
      obtain ⟨hk, file, e1, e2⟩ := leafOk low indent h0 (by omega)
      exact ⟨_, by rw [e1, Res.ok_bind, e2]⟩
    · next hne =>
      have hmidv : (high + low).tdiv 2 = (high + low) / 2 := tdiv_two _ (by omega)
      split
      · next hmid =>
        obtain ⟨hk, file, e1, e2⟩ := leafOk ((high + low).tdiv 2) (indent + 4) (by omega) (by omega)
        obtain ⟨hk2, file2, e3, e4⟩ := leafOk high (indent + 4) (by omega) (by omega)
        exact ⟨_, by simp only [e1, Res.ok_bind, e2, e3, e4]; rfl⟩
      · next hmid =>
        obtain ⟨hk, file, e1, e2⟩ := leafOk ((high + low).tdiv 2) (indent + 4) (by omega) (by omega)
        obtain ⟨l, e3⟩ := ih low ((high + low).tdiv 2) (indent + 4) h0 (by omega) (by omega)
          (by omega)
        obtain ⟨r, e4⟩ := ih ((high + low).tdiv 2 + 1) high (indent + 4) (by omega) (by omega)
          hlen (by omega)
        exact ⟨_, by simp only [e1, Res.ok_bind, e2, e3, e4]; rfl⟩

/-! ## The generated structure: evaluation, leaves, depth -/

/-- Every leaf of the structure built for a range names the hash of an index of the
range and the first path the map stores for it. -/
theorem Gen.leaves_index {arr : List Nat} {m : myMap}
    {low high : Int} {indent : Nat} {code : Code} (hg : Gen arr m low high indent code)
    (h0 : 0 ≤ low) (hlh : low ≤ high) (leaf : Leaf) (hl : leaf ∈ code.leaves) :
    ∃ k, low ≤ k ∧ k ≤ high ∧ index arr k = .ok leaf.hash
      ∧ index (mapGet m leaf.hash) 0 = .ok leaf.marker := by
  induction hg with
  | leaf low indent h file e1 e2 =>
    simp only [Code.leaves, List.mem_singleton] at hl
    subst hl
    exact ⟨low, le_refl _, le_refl _, e1, e2⟩
  | two low high indent hm fm hh fh hne hmid e1 e2 e3 e4 =>
    simp only [Code.leaves, List.mem_append, List.mem_singleton] at hl
    rcases hl with hl | hl
    · subst hl
      exact ⟨low, le_refl _, hlh, e1, e2⟩
    · subst hl
      exact ⟨high, hlh, le_refl _, e3, e4⟩
  | three low high indent hm fm l r hne hmid e1 e2 _ _ ihl ihr =>
    have hmv := tdiv_two (high + low) (by omega)
    simp only [Code.leaves, List.mem_append, List.mem_singleton] at hl
    rcases hl with (hl | hl) | hl
    · subst hl
      exact ⟨(high + low).tdiv 2, by omega, by omega, e1, e2⟩
    · obtain ⟨k, k1, k2, k3, k4⟩ := ihl h0 (by omega) hl
      exact ⟨k, k1, by omega, k3, k4⟩
    · obtain ⟨k, k1, k2, k3, k4⟩ := ihr (by omega) (by omega) hl
      exact ⟨k, by omega, k2, k3, k4⟩

theorem index_zero_eq_ok {files : List ByteStr} {file : ByteStr} :
    index files 0 = .ok file ↔ files[0]? = some file := by
  rw [index_eq_ok]
  simp

/-- On a non-empty sequence whose hashes all have a path, `generateBreakFileBody`
returns, and its text is the rendering of the structure built for the whole range. -/
theorem generateBreakFileBody_returns (arr : List Nat) (m : myMap) (hne : arr ≠ [])
    (hm : ∀ h ∈ arr, mapGet m h ≠ []) :
    ∃ code, generateBreakFileBodyCode arr m = .ok code
      ∧ generateBreakFileBody arr m = .ok code.render
      ∧ Gen arr m 0 ((arr.length : Int) - 1) 4 code := by
  have hpos : 0 < arr.length := List.length_pos.mpr hne
  obtain ⟨code, hc⟩ := generateBreakHelperCode_total (arr.length + 1) arr m 0
    ((arr.length : Int) - 1) 4 hm (le_refl _) (by omega) (by omega) (by push_cast; omega)
  refine ⟨code, hc, ?_, generateBreakHelperCode_gen _ _ _ _ _ _ _ hc⟩
  rw [generateBreakFileBody_render]
  unfold generateBreakFileBodyCode
  rw [hc]
  rfl

theorem Code.render_leaf_occurs (code : Code) (leaf : Leaf) (hl : leaf ∈ code.leaves) :
    ∃ indent, foundHashText leaf.hash leaf.marker indent <:+: code.render := by
  induction code with
  | foundHash hash file indent =>
    simp only [Code.leaves, List.mem_singleton] at hl
    subst hl
    exact ⟨indent, [], [], by simp [Code.render]⟩
  | ifThen ifc ifb elseb indent ih1 ih2 =>
    simp only [Code.leaves, List.mem_append] at hl
    rcases hl with hl | hl
    · obtain ⟨i, hi⟩ := ih1 hl
      exact ⟨i, hi.trans ⟨s indent ++ lit "if (" ++ ifc.render ++ lit ") \x7b\n",
        (s indent ++ lit "\x7d else \x7b\n") ++ elseb.render ++ (s indent ++ lit "\x7d\n"),
        by simp only [Code.render, Dontbug.ifThen, List.append_assoc]⟩⟩
    · obtain ⟨i, hi⟩ := ih2 hl
      exact ⟨i, hi.trans ⟨(s indent ++ lit "if (" ++ ifc.render ++ lit ") \x7b\n") ++ ifb.render
          ++ (s indent ++ lit "\x7d else \x7b\n"),
        s indent ++ lit "\x7d\n",
        by simp only [Code.render, Dontbug.ifThen, List.append_assoc]⟩⟩
  | ifThenElse ifc ifb elseifc elseifb elseb indent ih1 ih2 ih3 =>
    simp only [Code.leaves, List.mem_append] at hl
    rcases hl with (hl | hl) | hl
    · obtain ⟨i, hi⟩ := ih1 hl
      exact ⟨i, hi.trans ⟨s indent ++ lit "if (" ++ ifc.render ++ lit ") \x7b\n",
        (s indent ++ lit "\x7d else if (" ++ elseifc.render ++ lit ") \x7b\n") ++ elseifb.render
          ++ (s indent ++ lit "\x7d else \x7b\n") ++ elseb.render ++ (s indent ++ lit "\x7d\n"),
        by simp only [Code.render, Dontbug.ifThenElse, List.append_assoc]⟩⟩
    · obtain ⟨i, hi⟩ := ih2 hl
      exact ⟨i, hi.trans ⟨(s indent ++ lit "if (" ++ ifc.render ++ lit ") \x7b\n") ++ ifb.render
          ++ (s indent ++ lit "\x7d else if (" ++ elseifc.render ++ lit ") \x7b\n"),
        (s indent ++ lit "\x7d else \x7b\n") ++ elseb.render ++ (s indent ++ lit "\x7d\n"),
        by simp only [Code.render, Dontbug.ifThenElse, List.append_assoc]⟩⟩
    · obtain ⟨i, hi⟩ := ih3 hl
      exact ⟨i, hi.trans ⟨(s indent ++ lit "if (" ++ ifc.render ++ lit ") \x7b\n") ++ ifb.render
          ++ (s indent ++ lit "\x7d else if (" ++ elseifc.render ++ lit ") \x7b\n")
          ++ elseifb.render ++ (s indent ++ lit "\x7d else \x7b\n"),
        s indent ++ lit "\x7d\n",
        by simp only [Code.render, Dontbug.ifThenElse, List.append_assoc]⟩⟩

/-! ## `makeMap` -/

theorem djbx33a_eq_hashValue (w : Nat) (p : ByteStr) : djbx33a w p = .ok (hashValue w p) :=
  djbx33a_run w p

theorem mapHas_iff (m : myMap) (k : Nat) : mapHas m k = true ↔ k ∈ mapKeys m := by
  induction m with
  | nil => simp [mapHas, mapKeys]
  | cons e rest ih =>
    obtain ⟨k1, v⟩ := e
    unfold mapHas
    by_cases h : k1 = k
    · simp [h, mapKeys]
    · have h' : ¬ k = k1 := fun e => h e.symm
      simp only [h, if_false, ih]
      simp [mapKeys, h']

theorem mapSet_absent (m : myMap) (k : Nat) (v : List ByteStr) (h : mapHas m k = false) :
    mapSet m k v = m ++ [(k, v)] := by
  induction m with
  | nil => rfl
  | cons e rest ih =>
    obtain ⟨k1, v1⟩ := e
    unfold mapHas at h
    by_cases hk : k1 = k
    · simp [hk] at h
    · simp only [hk, if_false] at h
      simp [mapSet, hk, ih h]

/-- The entries `makeMap` stores for a list of paths with distinct hashes. -/
theorem mapGet_entries (w : Nat) (files : List ByteStr)
    (hh : (files.map (hashValue w)).Nodup) (k : Nat) :
    (∀ p ∈ files, hashValue w p = k → mapGet (files.map fun p => (hashValue w p, [p])) k = [p])
      ∧ (k ∉ files.map (hashValue w) → mapGet (files.map fun p => (hashValue w p, [p])) k = []) := by
  induction files with
  | nil => simp [mapGet]
  | cons q rest ih =>
    rw [List.map_cons, List.nodup_cons] at hh
    obtain ⟨ih1, ih2⟩ := ih hh.2
    constructor
    · intro p hp hk
      rw [List.mem_cons] at hp
      by_cases hq : hashValue w q = k
      · have hpq : p = q := by
          rcases hp with hp | hp
          · exact hp
          · exfalso
            apply hh.1
            rw [hq, ← hk]
            exact List.mem_map_of_mem _ hp
        subst hpq
        simp [mapGet, hq]
      · have hp' : p ∈ rest := by
          rcases hp with hp | hp
          · subst hp; exact absurd hk hq
          · exact hp
        simp only [List.map_cons, mapGet, hq, if_false]
        exact ih1 p hp' hk
    · intro hk
      rw [List.map_cons, List.mem_cons, not_or] at hk
      have hq : ¬ hashValue w q = k := fun e => hk.1 e.symm
      simp only [List.map_cons, mapGet, hq, if_false]
      exact ih2 hk.2

/-- The loop of `makeMap` either stores one singleton bucket per path, in order, or ends
in `log.Fatal`; it does the first exactly when no hash is met twice. -/
theorem makeMapLoop_run (w : Nat) (files : List ByteStr) (st : MapState) :
    makeMapLoop w files st
      = if (files.map (hashValue w)).Nodup ∧ ∀ p ∈ files, hashValue w p ∉ mapKeys st.m then
          .ok { m := st.m ++ files.map (fun p => (hashValue w p, [p])),
                hash_ar := st.hash_ar ++ files.map (hashValue w) }
        else .fatal := by
  induction files generalizing st with
  | nil => simp [makeMapLoop]
  | cons q rest ih =>
    simp only [makeMapLoop, makeMapStep, djbx33a_eq_hashValue]
    by_cases hq : mapHas st.m (hashValue w q) = true
    · have hq' := (mapHas_iff _ _).mp hq
      simp only [hq, if_true]
      rw [if_neg]
      intro hc
      exact hc.2 q (List.mem_cons_self _ _) hq'
    · have hq' : hashValue w q ∉ mapKeys st.m := fun hmem => hq ((mapHas_iff _ _).mpr hmem)
      have hqf : mapHas st.m (hashValue w q) = false := by simpa using hq
      simp only [hqf, Bool.false_eq_true, if_false]
      rw [ih, mapSet_absent _ _ _ hqf]
      have hcond : ((rest.map (hashValue w)).Nodup
            ∧ ∀ p ∈ rest, hashValue w p ∉ mapKeys (st.m ++ [(hashValue w q, [q])]))
          ↔ (((q :: rest).map (hashValue w)).Nodup
            ∧ ∀ p ∈ q :: rest, hashValue w p ∉ mapKeys st.m) := by
        have hk : ∀ k, k ∈ mapKeys (st.m ++ [(hashValue w q, [q])])
            ↔ k ∈ mapKeys st.m ∨ k = hashValue w q := by
          intro k
          simp [mapKeys]
        rw [List.map_cons, List.nodup_cons]
        constructor
        · rintro ⟨h1, h2⟩
          refine ⟨⟨?_, h1⟩, ?_⟩
          · intro hmem
            obtain ⟨p, hp, hpe⟩ := List.mem_map.mp hmem
            exact h2 p hp ((hk _).mpr (Or.inr hpe))
          · intro p hp
            rcases List.mem_cons.mp hp with hp | hp
            · subst hp; exact hq'
            · exact fun hmem => h2 p hp ((hk _).mpr (Or.inl hmem))
        · rintro ⟨⟨h1, h2⟩, h4⟩
          refine ⟨h2, fun p hp hmem => ?_⟩
          rcases (hk _).mp hmem with hmem | hmem
          · exact h4 p (List.mem_cons_of_mem _ hp) hmem
          · exact h1 (List.mem_map.mpr ⟨p, hp, hmem⟩)
      by_cases hc : (rest.map (hashValue w)).Nodup
            ∧ ∀ p ∈ rest, hashValue w p ∉ mapKeys (st.m ++ [(hashValue w q, [q])])
      · rw [if_pos hc, if_pos (hcond.mp hc)]
        simp
      · rw [if_neg hc, if_neg (fun h => hc (hcond.mpr h))]

/-- The function `makeMap` returns exactly when the hashes of the paths are pairwise
distinct as a list; otherwise it ends in `log.Fatal`. -/
theorem makeMap_run (w : Nat) (files : List ByteStr) :
    makeMap w files
      = if (files.map (hashValue w)).Nodup then
          .ok (sortSort (files.map (hashValue w)), files.map (fun p => (hashValue w p, [p])))
        else .fatal := by
  unfold makeMap
  rw [makeMapLoop_run]
  by_cases h : (files.map (hashValue w)).Nodup
  · simp [h, mapKeys]
  · simp [h]

theorem sortSort_perm (l : List Nat) : (sortSort l).Perm l :=
  List.perm_insertionSort _ l

theorem sortSort_mem (l : List Nat) (k : Nat) : k ∈ sortSort l ↔ k ∈ l :=
  (sortSort_perm l).mem_iff

theorem sortSort_ascending (l : List Nat) (h : l.Nodup) :
    (sortSort l).Sorted (fun a b => a < b) :=
  (List.sorted_insertionSort (fun a b : Nat => a ≤ b) l).lt_of_le
    ((sortSort_perm l).nodup_iff.mpr h)

/-! ## Claims on the dispatch tree -/

/-- C7: for a non-empty sequence `arr` and a map giving every element of `arr` a non-empty
path list, every leaf of the text `generateBreakFileBody` returns is the pair of lines
`// hash == <hash>` and `return ZEND_USER_OPCODE_DISPATCH; //### <path>` written by
`foundHash`, it carries one path, and for some index `i` the hash named is `arr[i]` and
the path is `m[arr[i]][0]`. -/
theorem generateBreakFileBody_leaf_markers (arr : List Nat) (m : myMap) (hne : arr ≠ [])
    (hm : ∀ h ∈ arr, mapGet m h ≠ []) :
    ∃ code, generateBreakFileBodyCode arr m = .ok code
      ∧ generateBreakFileBody arr m = .ok code.render
      ∧ ∀ leaf ∈ code.leaves,
          (∃ i, ∃ hi : i < arr.length, leaf.hash = arr[i]
            ∧ (mapGet m arr[i])[0]? = some leaf.marker)
          ∧ ∃ indent,
              (s indent ++ lit "// hash == " ++ decimal leaf.hash ++ lit "\n")
                ++ (s indent ++ lit "return ZEND_USER_OPCODE_DISPATCH; //### " ++ leaf.marker
                    ++ lit "\n")
              <:+: code.render := by
  obtain ⟨code, hc, ht, hg⟩ := generateBreakFileBody_returns arr m hne hm
  refine ⟨code, hc, ht, fun leaf hl => ⟨?_, code.render_leaf_occurs leaf hl⟩⟩
  have hpos : 0 < arr.length := List.length_pos.mpr hne
  obtain ⟨k, k1, k2, k3, k4⟩ := hg.leaves_index (le_refl _) (by omega) leaf hl
  obtain ⟨_, hx⟩ := index_eq_ok.mp k3
  obtain ⟨hlt, he⟩ := List.getElem?_eq_some_iff.mp hx
  refine ⟨k.toNat, hlt, he.symm, ?_⟩
  rw [he]
  exact index_zero_eq_ok.mp k4

/-- C7 at the sequence 10, 20, 30 with one path per hash. -/
theorem generateBreakFileBody_leaf_markers_witness :
    ([10, 20, 30] : List Nat) ≠ []
      ∧ ∃ code, generateBreakFileBodyCode [10, 20, 30] [(10, [[97]]), (20, [[98]]), (30, [[99]])]
          = .ok code
        ∧ generateBreakFileBody [10, 20, 30] [(10, [[97]]), (20, [[98]]), (30, [[99]])]
          = .ok code.render
        ∧ ∀ leaf ∈ code.leaves,
            (∃ i, ∃ hi : i < [10, 20, 30].length, leaf.hash = [10, 20, 30][i]
              ∧ (mapGet [(10, [[97]]), (20, [[98]]), (30, [[99]])] [10, 20, 30][i])[0]?
                = some leaf.marker)
            ∧ ∃ indent,
                (s indent ++ lit "// hash == " ++ decimal leaf.hash ++ lit "\n")
                  ++ (s indent ++ lit "return ZEND_USER_OPCODE_DISPATCH; //### " ++ leaf.marker
                      ++ lit "\n")
                <:+: code.render :=
  ⟨by decide,
   generateBreakFileBody_leaf_markers [10, 20, 30] [(10, [[97]]), (20, [[98]]), (30, [[99]])]
    (by decide) (by decide)⟩

/-! ## Claims on `makeMap` -/

theorem djbx33a_eq_iff (w : Nat) (p q : ByteStr) :
    djbx33a w p = djbx33a w q ↔ hashValue w p = hashValue w q := by
  rw [djbx33a_eq_hashValue, djbx33a_eq_hashValue]
  exact ⟨fun h => Res.ok.inj h, fun h => by rw [h]⟩

theorem hashes_nodup_iff (w : Nat) (files : List ByteStr) (hp : files.Nodup) :
    (files.map (hashValue w)).Nodup
      ↔ ∀ p ∈ files, ∀ q ∈ files, p ≠ q → djbx33a w p ≠ djbx33a w q := by
  rw [List.nodup_map_iff_inj_on hp]
  constructor
  · intro h p hp q hq hne he
    exact hne (h p hp q hq ((djbx33a_eq_iff w p q).mp he))
  · intro h p hp q hq he
    by_contra hne
    exact h p hp q hq hne ((djbx33a_eq_iff w p q).mpr he)

/-- A list with a repetition has a first position whose element occurred before. -/
theorem first_repeat (l : List Nat) (h : ¬ l.Nodup) :
    ∃ j, ∃ hj : j < l.length, (l.take j).Nodup ∧ ¬ (l.take (j + 1)).Nodup
      ∧ ∃ i, ∃ hi : i < j, l[i] = l[j] := by
  induction l using List.reverseRecOn with
  | nil => exact absurd List.nodup_nil h
  | append_singleton l a ih =>
    by_cases hl : l.Nodup
    · have ha : a ∈ l := by
        by_contra hna
        apply h
        rw [List.nodup_append]
        refine ⟨hl, List.nodup_singleton a, ?_⟩
        intro x hx hx'
        rw [List.mem_singleton] at hx'
        subst hx'
        exact hna hx
      obtain ⟨i, hi, hie⟩ := List.getElem_of_mem ha
      refine ⟨l.length, by simp, ?_, ?_, i, hi, ?_⟩
      · simpa using hl
      · rw [List.take_of_length_le (by simp)]
        exact h
      · rw [List.getElem_append_left hi, hie]
        simp
    · obtain ⟨j, hj, h1, h2, i, hi, hie⟩ := ih hl
      refine ⟨j, by simp; omega, ?_, ?_, i, hi, ?_⟩
      · rw [List.take_append_of_le_length (by omega)]
        exact h1
      · rw [List.take_append_of_le_length (by omega)]
        exact h2
      · rw [List.getElem_append_left (by omega), List.getElem_append_left hj]
        exact hie

/-- C8: for a list of `N` pairwise distinct paths whose hashes are pairwise distinct,
`makeMap` returns a hash sequence of length `N`, strictly ascending and free of
duplicates, with a map of exactly `N` keys in which every path `p` of the list is in
exactly one bucket, the singleton stored under `djbx33a p`; the keys of the map are the
elements of the sequence. -/
theorem makeMap_distinct_hashes (uintSize : Nat) (files : List ByteStr) (hp : files.Nodup)
    (hh : ∀ p ∈ files, ∀ q ∈ files, p ≠ q → djbx33a uintSize p ≠ djbx33a uintSize q) :
    ∃ arr m, makeMap uintSize files = .ok (arr, m)
      ∧ arr.length = files.length
      ∧ arr.Sorted (fun a b => a < b) ∧ arr.Nodup
      ∧ (mapKeys m).Nodup ∧ (mapKeys m).length = files.length
      ∧ (∀ p ∈ files, ∃ h, djbx33a uintSize p = .ok h ∧ mapGet m h = [p]
          ∧ ∀ k, p ∈ mapGet m k ↔ k = h)
      ∧ (∀ k, k ∈ mapKeys m ↔ k ∈ arr) := by
  have hnd : (files.map (hashValue uintSize)).Nodup := (hashes_nodup_iff _ _ hp).mpr hh
  have hkeys : mapKeys (files.map fun p => (hashValue uintSize p, [p]))
      = files.map (hashValue uintSize) := by
    simp [mapKeys, Function.comp_def]
  refine ⟨sortSort (files.map (hashValue uintSize)),
    files.map (fun p => (hashValue uintSize p, [p])), ?_, ?_, ?_, ?_, ?_, ?_, ?_, ?_⟩
  · rw [makeMap_run, if_pos hnd]
  · rw [(sortSort_perm _).length_eq, List.length_map]
  · exact sortSort_ascending _ hnd
  · exact (sortSort_perm _).nodup_iff.mpr hnd
  · rw [hkeys]; exact hnd
  · rw [hkeys, List.length_map]
  · intro p hpm
    have hget := (mapGet_entries uintSize files hnd (hashValue uintSize p)).1 p hpm rfl
    refine ⟨hashValue uintSize p, djbx33a_eq_hashValue _ _, hget, fun k => ⟨fun hk => ?_, ?_⟩⟩
    · by_cases hkm : k ∈ files.map (hashValue uintSize)
      · obtain ⟨q, hq, rfl⟩ := List.mem_map.mp hkm
        rw [(mapGet_entries uintSize files hnd _).1 q hq rfl, List.mem_singleton] at hk
        rw [hk]
      · rw [(mapGet_entries uintSize files hnd k).2 hkm] at hk
        cases hk
    · rintro rfl
      rw [hget]
      exact List.mem_singleton_self p
  · intro k
    rw [hkeys, sortSort_mem]

/-- C8 at the paths `/b` and `/a` on a platform with 8-byte `uint`. -/
theorem makeMap_distinct_hashes_witness :
    ([[47, 98], [47, 97]] : List ByteStr).Nodup
      ∧ ∃ arr m, makeMap 8 [[47, 98], [47, 97]] = .ok (arr, m)
        ∧ arr.length = ([[47, 98], [47, 97]] : List ByteStr).length
        ∧ arr.Sorted (fun a b => a < b) ∧ arr.Nodup
        ∧ (mapKeys m).Nodup ∧ (mapKeys m).length = ([[47, 98], [47, 97]] : List ByteStr).length
        ∧ (∀ p ∈ ([[47, 98], [47, 97]] : List ByteStr), ∃ h, djbx33a 8 p = .ok h
            ∧ mapGet m h = [p] ∧ ∀ k, p ∈ mapGet m k ↔ k = h)
        ∧ (∀ k, k ∈ mapKeys m ↔ k ∈ arr) :=
  ⟨by decide,
   makeMap_distinct_hashes 8 [[47, 98], [47, 97]] (by decide)
    (by
      intro p hp q hq hne
      rw [djbx33a_eq_hashValue, djbx33a_eq_hashValue]
      revert p q
      decide)⟩

/-- C9: for a list of pairwise distinct paths, `makeMap` ends in `log.Fatal` exactly when
two different paths of the list have the same `djbx33a` hash, and otherwise returns. When
it fails, it fails on the first path whose hash was already stored for an earlier path: the
paths before it are processed without failure. No bucket of a returned map, for any number
of paths processed, holds more than the one path it was created with. -/
theorem makeMap_fatal_iff_collision (uintSize : Nat) (files : List ByteStr) (hp : files.Nodup) :
    (makeMap uintSize files = .fatal
        ↔ ∃ p ∈ files, ∃ q ∈ files, p ≠ q ∧ djbx33a uintSize p = djbx33a uintSize q)
      ∧ (makeMap uintSize files ≠ .fatal → ∃ arr m, makeMap uintSize files = .ok (arr, m))
      ∧ (makeMap uintSize files = .fatal →
          ∃ j, ∃ hj : j < files.length,
            (∃ arr m, makeMap uintSize (files.take j) = .ok (arr, m))
            ∧ makeMap uintSize (files.take (j + 1)) = .fatal
            ∧ ∃ i, ∃ hi : i < j, files[i] ≠ files[j]
                ∧ djbx33a uintSize files[i] = djbx33a uintSize files[j])
      ∧ (∀ j arr m, makeMap uintSize (files.take j) = .ok (arr, m) →
          ∀ e ∈ m, e.2.length = 1) := by
  have hfat : ∀ fs : List ByteStr,
      makeMap uintSize fs = .fatal ↔ ¬ (fs.map (hashValue uintSize)).Nodup := by
    intro fs
    rw [makeMap_run]
    by_cases h : (fs.map (hashValue uintSize)).Nodup <;> simp [h]
  refine ⟨?_, ?_, ?_, ?_⟩
  · rw [hfat, hashes_nodup_iff _ _ hp]
    push_neg
    rfl
  · intro h
    rw [makeMap_run] at h ⊢
    by_cases hn : (files.map (hashValue uintSize)).Nodup
    · exact ⟨_, _, by rw [if_pos hn]⟩
    · rw [if_neg hn] at h
      exact absurd rfl h
  · intro h
    obtain ⟨j, hj, h1, h2, i, hi, hie⟩ := first_repeat _ ((hfat files).mp h)
    rw [List.length_map] at hj
    refine ⟨j, hj, ?_, ?_, i, hi, ?_, ?_⟩
    · have hn : ((files.take j).map (hashValue uintSize)).Nodup := by
        rw [List.map_take]
        exact h1
      exact ⟨_, _, by rw [makeMap_run, if_pos hn]⟩
    · rw [hfat, List.map_take]
      exact h2
    · intro he
      have := (List.Nodup.getElem_inj_iff hp).mp he
      omega
    · rw [djbx33a_eq_iff]
      simpa using hie
  · intro j arr m h e he
    rw [makeMap_run] at h
    by_cases hn : ((files.take j).map (hashValue uintSize)).Nodup
    · rw [if_pos hn] at h
      simp only [Res.ok.injEq, Prod.mk.injEq] at h
      rw [← h.2] at he
      obtain ⟨p, _, rfl⟩ := List.mem_map.mp he
      rfl
    · rw [if_neg hn] at h
      cases h

/-- C9 at the paths `Ez` and `FY`, which have the same hash: `makeMap` ends in `log.Fatal`. -/
theorem makeMap_fatal_iff_collision_witness :
    ([[69, 122], [70, 89]] : List ByteStr).Nodup
      ∧ makeMap 8 [[69, 122], [70, 89]] = .fatal
      ∧ (makeMap 8 [[69, 122], [70, 89]] = .fatal
          ↔ ∃ p ∈ ([[69, 122], [70, 89]] : List ByteStr), ∃ q ∈ ([[69, 122], [70, 89]] : List ByteStr),
              p ≠ q ∧ djbx33a 8 p = djbx33a 8 q) :=
  ⟨by decide, by rw [makeMap_run]; decide,
   (makeMap_fatal_iff_collision 8 [[69, 122], [70, 89]] (by decide)).1⟩

/-! ## Claims on the command engine -/

/-- C11 (as amended): for every engine state, `handleStop` sets the status to `stopped`
and leaves the reason as it was: the reason stored in the state and reported in the
returned payload after stop is the reason the state held before the call. The native
session and the breakpoint set are unchanged. -/
theorem handleStop_keeps_reason {G : Type} (es : engineState G) (dCmd : dbgpCmd) :
    (handleStop es dCmd).1.status = .statusStopped
      ∧ (handleStop es dCmd).1.reason = es.reason
      ∧ (handleStop es dCmd).2 = .status dCmd.Sequence .statusStopped es.reason
      ∧ (handleStop es dCmd).1.gdbSession = es.gdbSession
      ∧ (handleStop es dCmd).1.breakpoints = es.breakpoints :=
  ⟨rfl, rfl, rfl, rfl, rfl⟩

/-- C11, counterexample: two engine states that differ in their reason only (`"a"` and
`"b"`) report two different reasons after `handleStop`. -/
theorem handleStop_reason_not_fixed :
    (handleStop { esStarting with reason := [97] } ⟨[], 1, []⟩).2
        = .status 1 .statusStopped [97]
      ∧ (handleStop { esStarting with reason := [98] } ⟨[], 1, []⟩).2
        = .status 1 .statusStopped [98]
      ∧ (handleStop { esStarting with reason := [97] } ⟨[], 1, []⟩).1.reason
        ≠ (handleStop { esStarting with reason := [98] } ⟨[], 1, []⟩).1.reason := by
  decide

/-- A handler other than `handleRun` and `handleStop` always returns, and leaves status
and reason as they were. -/
theorem HandlerCall.handle_keeps_status {G : Type} (gdb : Gdb G) (es : engineState G)
    (call : HandlerCall) (hr : call.isRun = false) (hs : call.isStop = false) :
    ∃ r, call.handle gdb es = .ok r ∧ r.1.status = es.status ∧ r.1.reason = es.reason := by
  cases call with
  | status dCmd => exact ⟨_, rfl, rfl, rfl⟩
  | propertySet dCmd => exact ⟨_, rfl, rfl, rfl⟩
  | stdFd dCmd fdName => exact ⟨_, rfl, rfl, rfl⟩
  | diversionStandard dCmd => exact ⟨_, rfl, rfl, rfl⟩
  | diversionWithNoGdbBpts dCmd => exact ⟨_, rfl, rfl, rfl⟩
  | run dCmd reverse => cases hr
  | stop dCmd => cases hs

theorem handleAll_keeps_status {G : Type} (gdb : Gdb G) (calls : List HandlerCall)
    (es : engineState G) (hcalls : ∀ c ∈ calls, c.isRun = false ∧ c.isStop = false) :
    ∃ es2, handleAll gdb calls es = .ok es2 ∧ es2.status = es.status
      ∧ es2.reason = es.reason := by
  induction calls generalizing es with
  | nil => exact ⟨es, rfl, rfl, rfl⟩
  | cons call rest ih =>
    have hc := hcalls call (List.mem_cons_self _ _)
    obtain ⟨r, hr, h1, h2⟩ := call.handle_keeps_status gdb es hc.1 hc.2
    obtain ⟨es2, h3, h4, h5⟩ := ih r.1 (fun c hc => hcalls c (List.mem_cons_of_mem _ hc))
    exact ⟨es2, by simp only [handleAll, hr, h3], h4.trans h1, h5.trans h2⟩

/-- C12: `handleStatus` performs no mutation: for every engine state and command it
returns the state's current status and reason and leaves the engine state as it was; so a
second status call right after it, or after any calls of handlers other than run and
stop, reports the same status/reason pair. -/
theorem handleStatus_no_mutation {G : Type} (gdb : Gdb G) (es : engineState G)
    (d1 d2 : dbgpCmd) (calls : List HandlerCall)
    (hcalls : ∀ c ∈ calls, c.isRun = false ∧ c.isStop = false) :
    (handleStatus es d1).1 = es
      ∧ (handleStatus es d1).2 = .status d1.Sequence es.status es.reason
      ∧ (handleStatus (handleStatus es d1).1 d2).2 = .status d2.Sequence es.status es.reason
      ∧ ∃ es2, handleAll gdb calls (handleStatus es d1).1 = .ok es2
          ∧ (handleStatus es2 d2).2 = .status d2.Sequence es.status es.reason := by
  refine ⟨rfl, rfl, rfl, ?_⟩
  obtain ⟨es2, h1, h2, h3⟩ := handleAll_keeps_status gdb calls (handleStatus es d1).1 hcalls
  refine ⟨es2, h1, ?_⟩
  simp only [handleStatus] at h2 h3 ⊢
  rw [h2, h3]

/-- C12 at a status call followed by one call of each handler other than run and stop,
then a second status call. -/
theorem handleStatus_no_mutation_witness :
    (handleStatus esLog ⟨[], 1, []⟩).1 = esLog
      ∧ (handleStatus esLog ⟨[], 1, []⟩).2 = .status 1 esLog.status esLog.reason
      ∧ (handleStatus (handleStatus esLog ⟨[], 1, []⟩).1 ⟨[], 9, []⟩).2
        = .status 9 esLog.status esLog.reason
      ∧ ∃ es2, handleAll gdbLog
            [.status ⟨[], 2, []⟩, .propertySet ⟨[], 3, []⟩, .stdFd ⟨[], 4, []⟩ [],
             .diversionStandard ⟨[], 5, []⟩, .diversionWithNoGdbBpts ⟨[], 6, []⟩]
            (handleStatus esLog ⟨[], 1, []⟩).1 = .ok es2
          ∧ (handleStatus es2 ⟨[], 9, []⟩).2 = .status 9 esLog.status esLog.reason :=
  handleStatus_no_mutation gdbLog esLog ⟨[], 1, []⟩ ⟨[], 9, []⟩
    [.status ⟨[], 2, []⟩, .propertySet ⟨[], 3, []⟩, .stdFd ⟨[], 4, []⟩ [],
     .diversionStandard ⟨[], 5, []⟩, .diversionWithNoGdbBpts ⟨[], 6, []⟩]
    (by decide)

/-- C13: for every engine state and property-set command, the response of
`handlePropertySet` is the property-set failure response of the command's sequence
number: two calls with the same sequence number return the same response whatever the
engine states (even over different native sessions) and the command texts, the response
is never a success response, and the engine state is left as it was. -/
theorem handlePropertySet_fixed_failure {G H : Type} (es : engineState G) (es2 : engineState H)
    (sequence : Int) (command fullCommand command2 fullCommand2 : ByteStr) :
    (handlePropertySet es ⟨command, sequence, fullCommand⟩).2 = .propertySet sequence
      ∧ (handlePropertySet es ⟨command, sequence, fullCommand⟩).2
        = (handlePropertySet es2 ⟨command2, sequence, fullCommand2⟩).2
      ∧ (handlePropertySet es ⟨command, sequence, fullCommand⟩).2.success = some false
      ∧ (handlePropertySet es ⟨command, sequence, fullCommand⟩).2.success ≠ some true
      ∧ (handlePropertySet es ⟨command, sequence, fullCommand⟩).1 = es := by
  refine ⟨rfl, rfl, rfl, ?_, rfl⟩
  simp [handlePropertySet, Response.success]

/-! ## `handleRun` -/

/-- The outcome of `handleRun` in terms of what the resume step reports. -/
theorem handleRun_eq {G : Type} (gdb : Gdb G) (es : engineState G) (dCmd : dbgpCmd)
    (reverse : Bool) :
    handleRun gdb es dCmd reverse
      = if handleRunHit gdb es reverse = true then
          .ok (enableGdbBreakpoints
                { handleRunRepositioned gdb es reverse with
                  gdbSession := (xSlashDgdb gdb (xSlashSgdb gdb
                    (handleRunRepositioned gdb es reverse).gdbSession (lit "filename")).2
                    (lit "lineno")).2 }
                (getEnabledPhpBreakpoints (handleRunResumed gdb es reverse)),
               .runOrStepBreak (lit "run") dCmd.Sequence
                 (xSlashSgdb gdb (handleRunRepositioned gdb es reverse).gdbSession
                    (lit "filename")).1
                 (xSlashDgdb gdb (xSlashSgdb gdb
                    (handleRunRepositioned gdb es reverse).gdbSession (lit "filename")).2
                    (lit "lineno")).1)
        else .fatal := by
  rfl

theorem handleRun_hit {G : Type} (gdb : Gdb G) (es : engineState G) (dCmd : dbgpCmd)
    (reverse : Bool) (hhit : handleRunHit gdb es reverse = true) :
    ∃ es2, handleRun gdb es dCmd reverse
      = .ok (es2, .runOrStepBreak (lit "run") dCmd.Sequence
          (xSlashSgdb gdb (handleRunRepositioned gdb es reverse).gdbSession (lit "filename")).1
          (xSlashDgdb gdb (xSlashSgdb gdb
            (handleRunRepositioned gdb es reverse).gdbSession (lit "filename")).2
            (lit "lineno")).1) := by
  rw [handleRun_eq, if_pos hhit]
  exact ⟨_, rfl⟩

theorem handleRun_no_hit {G : Type} (gdb : Gdb G) (es : engineState G) (dCmd : dbgpCmd)
    (reverse : Bool) (hhit : handleRunHit gdb es reverse = false) :
    handleRun gdb es dCmd reverse = .fatal := by
  rw [handleRun_eq, if_neg (by simp [hhit])]

theorem handleRun_ok_hit {G : Type} (gdb : Gdb G) (es : engineState G) (dCmd : dbgpCmd)
    (reverse : Bool) (r : engineState G × Response)
    (h : handleRun gdb es dCmd reverse = .ok r) : handleRunHit gdb es reverse = true := by
  by_contra hn
  rw [handleRun_no_hit gdb es dCmd reverse (by simpa using hn)] at h
  cases h

/-- C14 (as amended): every `handleRun` call whose resume step hits a user breakpoint
returns a break response that carries the command name `run`, in the forward direction
and in the reverse direction alike. -/
theorem handleRun_command_name {G : Type} (gdb : Gdb G) (es : engineState G) (dCmd : dbgpCmd)
    (reverse : Bool) (hhit : handleRunHit gdb es reverse = true) :
    ∃ es2 filename lineno, handleRun gdb es dCmd reverse
      = .ok (es2, .runOrStepBreak (lit "run") dCmd.Sequence filename lineno) := by
  obtain ⟨es2, h⟩ := handleRun_hit gdb es dCmd reverse hhit
  exact ⟨es2, _, _, h⟩

/-- C14 (as amended) at a reverse run on a session whose resume stops at a user
breakpoint. -/
theorem handleRun_command_name_witness :
    handleRunHit gdbLog esLog true = true
      ∧ ∃ es2 filename lineno, handleRun gdbLog esLog ⟨[], 7, []⟩ true
          = .ok (es2, .runOrStepBreak (lit "run") 7 filename lineno) :=
  ⟨by decide, handleRun_command_name gdbLog esLog ⟨[], 7, []⟩ true (by decide)⟩

/-- C14, counterexample: a reverse `handleRun` that hits a user breakpoint returns a break
response whose command name is `run`, not `reverse-run`. -/
theorem handleRun_reverse_says_run :
    (handleRun gdbAlwaysHit esStarting ⟨[], 7, []⟩ true).mapOk Prod.snd
        = .ok (.runOrStepBreak (lit "run") 7 [] 0)
      ∧ lit "run" ≠ lit "reverse-run" := by
  decide

theorem handleRunRepositioned_after_goto {G : Type} (gdb : Gdb G) (es : engineState G)
    (reverse : Bool) :
    ∃ before : engineState G,
      handleRunRepositioned gdb es reverse = gotoMasterBpLocation gdb before false := by
  cases reverse with
  | false => exact ⟨_, rfl⟩
  | true => exact ⟨_, rfl⟩

/-- C15: the responses of `handleStatus`, `handleStop`, `handlePropertySet` and
`handleStdFd` carry the sequence number of the inbound command; so does the response of
`handleRun` whenever it returns, and `handleRun` returns once the resume step hits a user
breakpoint, with the file and line fields holding the answers the native debugger gives
to `filename` and then `lineno` in the session reached by the final
`gotoMasterBpLocation(es, false)`. -/
theorem responses_keyed_by_sequence {G : Type} (gdb : Gdb G) (es : engineState G)
    (dCmd : dbgpCmd) (fdName : ByteStr) (reverse : Bool) :
    (handleStatus es dCmd).2.sequence = some dCmd.Sequence
      ∧ (handleStop es dCmd).2.sequence = some dCmd.Sequence
      ∧ (handlePropertySet es dCmd).2.sequence = some dCmd.Sequence
      ∧ (handleStdFd es dCmd fdName).2.sequence = some dCmd.Sequence
      ∧ (∀ r, handleRun gdb es dCmd reverse = .ok r → r.2.sequence = some dCmd.Sequence)
      ∧ (handleRunHit gdb es reverse = true →
          ∃ es2 before,
            handleRunRepositioned gdb es reverse = gotoMasterBpLocation gdb before false
            ∧ handleRun gdb es dCmd reverse
              = .ok (es2, .runOrStepBreak (lit "run") dCmd.Sequence
                  (gdb.printString (gotoMasterBpLocation gdb before false).gdbSession
                    (lit "filename")).1
                  (gdb.printInt
                    (gdb.printString (gotoMasterBpLocation gdb before false).gdbSession
                      (lit "filename")).2
                    (lit "lineno")).1)) := by
  refine ⟨rfl, rfl, rfl, rfl, ?_, ?_⟩
  · intro r hr
    obtain ⟨es2, h⟩ := handleRun_hit gdb es dCmd reverse (handleRun_ok_hit gdb es dCmd reverse r hr)
    rw [h] at hr
    cases hr
    rfl
  · intro hhit
    obtain ⟨es2, h⟩ := handleRun_hit gdb es dCmd reverse hhit
    obtain ⟨before, hb⟩ := handleRunRepositioned_after_goto gdb es reverse
    refine ⟨es2, before, hb, ?_⟩
    rw [h, hb]
    rfl

/-- C15 at a reverse run on the logging session. -/
theorem responses_keyed_by_sequence_witness :
    (handleStatus esLog ⟨[], 7, []⟩).2.sequence = some 7
      ∧ (handleStop esLog ⟨[], 7, []⟩).2.sequence = some 7
      ∧ (handlePropertySet esLog ⟨[], 7, []⟩).2.sequence = some 7
      ∧ (handleStdFd esLog ⟨[], 7, []⟩ (lit "stdout")).2.sequence = some 7
      ∧ (∀ r, handleRun gdbLog esLog ⟨[], 7, []⟩ true = .ok r → r.2.sequence = some 7)
      ∧ (handleRunHit gdbLog esLog true = true →
          ∃ es2 before,
            handleRunRepositioned gdbLog esLog true = gotoMasterBpLocation gdbLog before false
            ∧ handleRun gdbLog esLog ⟨[], 7, []⟩ true
              = .ok (es2, .runOrStepBreak (lit "run") 7
                  (gdbLog.printString (gotoMasterBpLocation gdbLog before false).gdbSession
                    (lit "filename")).1
                  (gdbLog.printInt
                    (gdbLog.printString (gotoMasterBpLocation gdbLog before false).gdbSession
                      (lit "filename")).2
                    (lit "lineno")).1)) :=
  responses_keyed_by_sequence gdbLog esLog ⟨[], 7, []⟩ (lit "stdout") true

/-- The reverse run on the logging session, evaluated: five requests are served up to the final
repositioning, and the file and line fields are the answers to the two requests that
follow it. -/
theorem handleRun_reads_after_reposition :
    (handleRun gdbLog esLog ⟨[], 7, []⟩ true).mapOk Prod.snd
        = .ok (.runOrStepBreak (lit "run") 7 (decimal 5) 6)
      ∧ (handleRun gdbLog esLog ⟨[], 7, []⟩ true).mapOk (fun r => r.1.gdbSession)
        = .ok [lit "master-reverse", lit "reverse", lit "level", lit "reverse", lit "master",
               lit "filename", lit "lineno"] := by
  decide

/-! ## `handleRun` and the breakpoint set -/

/-- Re-enabling the enabled IDE breakpoints after disabling them gives the breakpoint set
back, when no two breakpoints share an identifier. -/
theorem enable_disable_restores (bps : List Breakpoint) (hn : (bps.map Breakpoint.id).Nodup) :
    (bps.map fun b =>
        if b.id ∈ (bps.filter fun b => b.php && b.enabled).map Breakpoint.id
        then { b with enabled := false } else b).map
      (fun b =>
        if b.id ∈ (bps.filter fun b => b.php && b.enabled).map Breakpoint.id
        then { b with enabled := true } else b)
      = bps := by
  rw [List.map_map]
  conv_rhs => rw [← List.map_id bps]
  apply List.map_congr_left
  intro b hb
  simp only [Function.comp_apply, id_eq]
  by_cases hmem : b.id ∈ (bps.filter fun b => b.php && b.enabled).map Breakpoint.id
  · obtain ⟨b2, hb2, hid⟩ := List.mem_map.mp hmem
    have hb2' := List.mem_filter.mp hb2
    have hbb : b2 = b := List.inj_on_of_nodup_map hn hb2'.1 hb hid
    subst hbb
    have hen : b2.enabled = true := by
      have := hb2'.2
      simp only [Bool.and_eq_true] at this
      exact this.2
    simp only [hmem, if_true]
    cases b2
    simp only [Breakpoint.mk.injEq, true_and]
    exact hen.symm
  · simp only [hmem, if_false]

theorem foldl_max_ge (l : List Nat) (a : Nat) : a ≤ l.foldl max a ∧ ∀ x ∈ l, x ≤ l.foldl max a := by
  induction l generalizing a with
  | nil => simp
  | cons y rest ih =>
    obtain ⟨h1, h2⟩ := ih (max a y)
    refine ⟨le_trans (le_max_left a y) h1, fun x hx => ?_⟩
    rcases List.mem_cons.mp hx with hx | hx
    · subst hx
      exact le_trans (le_max_right a x) h1
    · exact h2 x hx

/-- The repositioning block of `handleRun` leaves the breakpoint set as it found it: the
temporary stack-level breakpoint of the reverse case is removed again. -/
theorem handleRunReposition_breakpoints {G : Type} (gdb : Gdb G) (es : engineState G)
    (reverse : Bool) :
    (handleRunReposition gdb es reverse).breakpoints = es.breakpoints := by
  cases reverse with
  | false => rfl
  | true =>
    simp only [handleRunReposition, gotoMasterBpLocation, removeGdbBreakpoint,
      continueExecution, setPhpStackLevelBreakpointInGdb, Bool.not_true, Bool.false_eq_true,
      if_false]
    rw [List.filter_append]
    have h1 : (es.breakpoints.filter fun b =>
        decide (b.id ≠ (es.breakpoints.map Breakpoint.id).foldl max 0 + 1)) = es.breakpoints := by
      rw [List.filter_eq_self]
      intro b hb
      have := (foldl_max_ge (es.breakpoints.map Breakpoint.id) 0).2 b.id
        (List.mem_map_of_mem _ hb)
      simp only [decide_eq_true_eq]
      omega
    rw [h1]
    simp

theorem handleRunStepBack_breakpoints {G : Type} (gdb : Gdb G) (es : engineState G)
    (reverse : Bool) (hn : (es.breakpoints.map Breakpoint.id).Nodup) :
    (handleRunStepBack gdb es reverse).breakpoints = es.breakpoints := by
  cases reverse with
  | false => rfl
  | true => exact enable_disable_restores es.breakpoints hn

theorem handleRunResumed_breakpoints {G : Type} (gdb : Gdb G) (es : engineState G)
    (reverse : Bool) (hn : (es.breakpoints.map Breakpoint.id).Nodup) :
    (handleRunResumed gdb es reverse).breakpoints = es.breakpoints :=
  handleRunStepBack_breakpoints gdb es reverse hn

/-- C16: for every engine state whose breakpoints have pairwise distinct identifiers and
either direction, a `handleRun` call whose resume step hits a user breakpoint returns a
break response with the breakpoint set as it was before the call: the same breakpoints
with the same enabled/disabled flags, hence the same enabled IDE breakpoints. The
repositioning block gives back the set it was given, so the temporary stack-level
breakpoint of the reverse case is gone on return. -/
theorem handleRun_breakpoints_unchanged {G : Type} (gdb : Gdb G) (es : engineState G)
    (dCmd : dbgpCmd) (reverse : Bool) (hn : (es.breakpoints.map Breakpoint.id).Nodup)
    (hhit : handleRunHit gdb es reverse = true) :
    (∃ r filename lineno, handleRun gdb es dCmd reverse = .ok r
        ∧ r.2 = .runOrStepBreak (lit "run") dCmd.Sequence filename lineno
        ∧ r.1.breakpoints = es.breakpoints
        ∧ getEnabledPhpBreakpoints r.1 = getEnabledPhpBreakpoints es)
      ∧ ∀ es3 : engineState G,
          (handleRunReposition gdb es3 reverse).breakpoints = es3.breakpoints := by
  refine ⟨?_, fun es3 => handleRunReposition_breakpoints gdb es3 reverse⟩
  have hres := handleRunResumed_breakpoints gdb es reverse hn
  have hfinal : (enableGdbBreakpoints
      { handleRunRepositioned gdb es reverse with
        gdbSession := (xSlashDgdb gdb (xSlashSgdb gdb
          (handleRunRepositioned gdb es reverse).gdbSession (lit "filename")).2
          (lit "lineno")).2 }
      (getEnabledPhpBreakpoints (handleRunResumed gdb es reverse))).breakpoints
      = es.breakpoints := by
    simp only [enableGdbBreakpoints, handleRunRepositioned, handleRunReposition_breakpoints,
      disableGdbBreakpoints, getEnabledPhpBreakpoints, hres]
    exact enable_disable_restores es.breakpoints hn
  exact ⟨_, _, _, by rw [handleRun_eq, if_pos hhit], rfl, hfinal,
    congrArg (fun bps => (bps.filter fun b => b.php && b.enabled).map Breakpoint.id) hfinal⟩

/-- C16 at a reverse run on a state with an enabled IDE breakpoint, a disabled IDE
breakpoint and an enabled internal breakpoint. -/
theorem handleRun_breakpoints_unchanged_witness :
    (esLog.breakpoints.map Breakpoint.id).Nodup ∧ handleRunHit gdbLog esLog true = true
      ∧ (∃ r filename lineno, handleRun gdbLog esLog ⟨[], 7, []⟩ true = .ok r
          ∧ r.2 = .runOrStepBreak (lit "run") 7 filename lineno
          ∧ r.1.breakpoints = esLog.breakpoints
          ∧ getEnabledPhpBreakpoints r.1 = getEnabledPhpBreakpoints esLog)
      ∧ ∀ es3 : engineState (List ByteStr),
          (handleRunReposition gdbLog es3 true).breakpoints = es3.breakpoints :=
  ⟨by decide, by decide,
   handleRun_breakpoints_unchanged gdbLog esLog ⟨[], 7, []⟩ true (by decide) (by decide)⟩

/-- C18: `handleRun` returns a response exactly when the resume step in the requested
direction reports that a user breakpoint was hit, and the response is then a break
response; when the resume step reports no user breakpoint, in either direction,
`handleRun` ends in `log.Fatal` and returns nothing. -/
theorem handleRun_returns_iff_hit {G : Type} (gdb : Gdb G) (es : engineState G)
    (dCmd : dbgpCmd) (reverse : Bool) :
    ((∃ r, handleRun gdb es dCmd reverse = .ok r) ↔ handleRunHit gdb es reverse = true)
      ∧ (handleRunHit gdb es reverse = false ↔ handleRun gdb es dCmd reverse = .fatal)
      ∧ (∀ r, handleRun gdb es dCmd reverse = .ok r →
          ∃ filename lineno, r.2 = .runOrStepBreak (lit "run") dCmd.Sequence filename lineno)
      ∧ handleRunHit gdb es reverse
        = (continueExecution gdb (handleRunStepBack gdb es reverse) reverse).1.2 := by
  refine ⟨⟨fun ⟨r, hr⟩ => handleRun_ok_hit gdb es dCmd reverse r hr, fun h => ?_⟩,
    ⟨handleRun_no_hit gdb es dCmd reverse, fun h => ?_⟩, fun r hr => ?_, rfl⟩
  · obtain ⟨es2, h2⟩ := handleRun_hit gdb es dCmd reverse h
    exact ⟨_, h2⟩
  · cases hh : handleRunHit gdb es reverse with
    | false => rfl
    | true =>
      obtain ⟨es2, h2⟩ := handleRun_hit gdb es dCmd reverse hh
      rw [h2] at h
      cases h
  · obtain ⟨es2, h2⟩ := handleRun_hit gdb es dCmd reverse
      (handleRun_ok_hit gdb es dCmd reverse r hr)
    rw [h2] at hr
    cases hr
    exact ⟨_, _, rfl⟩

/-- The two outcomes of `handleRun`, evaluated: a break response on a session whose
resume hits a user breakpoint, `log.Fatal` on one whose resume does not, forward and
reverse. -/
theorem handleRun_outcomes :
    (handleRun gdbAlwaysHit esStarting ⟨[], 7, []⟩ false).mapOk Prod.snd
        = .ok (.runOrStepBreak (lit "run") 7 [] 0)
      ∧ (handleRun gdbNeverHit esStarting ⟨[], 7, []⟩ false).mapOk Prod.snd = .fatal
      ∧ (handleRun gdbNeverHit esStarting ⟨[], 7, []⟩ true).mapOk Prod.snd = .fatal := by
  decide

/-! ## Leaves of the generated structure -/

/-- The structure built for a range has at least one leaf per element of the range. -/
theorem Gen.leaves_length_ge {arr : List Nat} {m : myMap}
    {low high : Int} {indent : Nat} {code : Code} (hg : Gen arr m low high indent code)
    (h0 : 0 ≤ low) (hlh : low ≤ high) :
    (high - low + 1).toNat ≤ code.leaves.length := by
  induction hg with
  | leaf low indent h file e1 e2 => simp [Code.leaves]
  | two low high indent hm fm hh fh hne hmid e1 e2 e3 e4 =>
    rw [tdiv_two _ (by omega)] at hmid
    simp only [Code.leaves, List.length_append, List.length_singleton]
    omega
  | three low high indent hm fm l r hne hmid e1 e2 _ _ ihl ihr =>
    have hmv := tdiv_two (high + low) (by omega)
    have hl := ihl h0 (by omega)
    have hr := ihr (by omega) (by omega)
    simp only [Code.leaves, List.length_append, List.length_singleton]
    omega

/-- A range of three or more elements gets more leaves than it has elements: the hash
`arr[mid]` of a three-way branch has the leaf of the equal arm and a leaf in the
less-than arm, which is built for the range `[low, mid]`. -/
theorem Gen.leaves_length_gt {arr : List Nat} {m : myMap}
    {low high : Int} {indent : Nat} {code : Code} (hg : Gen arr m low high indent code)
    (h0 : 0 ≤ low) (hlh : low + 2 ≤ high) :
    (high - low + 1).toNat < code.leaves.length := by
  induction hg with
  | leaf low indent h file e1 e2 => omega
  | two low high indent hm fm hh fh hne hmid e1 e2 e3 e4 =>
    rw [tdiv_two _ (by omega)] at hmid
    omega
  | three low high indent hm fm l r hne hmid e1 e2 gl gr _ _ =>
    have hmv := tdiv_two (high + low) (by omega)
    have hl := gl.leaves_length_ge h0 (by omega)
    have hr := gr.leaves_length_ge (by omega) (by omega)
    simp only [Code.leaves, List.length_append, List.length_singleton]
    omega

set_option maxRecDepth 100000 in
/-- C17, at the sequence 10, 20, 30: the structure `generateBreakFileBody` returns has
four leaves, naming the hashes 20, 10, 20, 30 in the order of the text; the hash 20 is
in two leaves and the marker of its file is written twice. -/
theorem generateBreakFileBody_pivot_leaf_twice :
    (generateBreakFileBodyCode [10, 20, 30] [(10, [[97]]), (20, [[98]]), (30, [[99]])]).mapOk
        (fun code => code.leaves)
      = .ok [{ hash := 20, marker := [98] }, { hash := 10, marker := [97] },
             { hash := 20, marker := [98] }, { hash := 30, marker := [99] }]
    ∧ generateBreakFileBody [10, 20, 30] [(10, [[97]]), (20, [[98]]), (30, [[99]])]
      = .ok (lit "    if (hash == 20) \x7b\n"
          ++ lit "        // hash == 20\n"
          ++ lit "        return ZEND_USER_OPCODE_DISPATCH; //### b\n"
          ++ lit "    \x7d else if (hash < 20) \x7b\n"
          ++ lit "        if (hash == 10) \x7b\n"
          ++ lit "            // hash == 10\n"
          ++ lit "            return ZEND_USER_OPCODE_DISPATCH; //### a\n"
          ++ lit "        \x7d else \x7b\n"
          ++ lit "            // hash == 20\n"
          ++ lit "            return ZEND_USER_OPCODE_DISPATCH; //### b\n"
          ++ lit "        \x7d\n"
          ++ lit "    \x7d else \x7b\n"
          ++ lit "        // hash == 30\n"
          ++ lit "        return ZEND_USER_OPCODE_DISPATCH; //### c\n"
          ++ lit "    \x7d\n")
    ∧ ([20, 10, 20, 30] : List Nat).count 20 = 2
    ∧ ([20, 10, 20, 30] : List Nat).length ≠ ([10, 20, 30] : List Nat).length
    ∧ ([20, 10, 20, 30] : List Nat) ≠ [10, 20, 30] := by
  decide

/-- Every non-empty sequence of three or more hashes gets more leaves than hashes. -/
theorem generateBreakFileBody_more_leaves (arr : List Nat) (m : myMap)
    (hn : 3 ≤ arr.length) (hm : ∀ h ∈ arr, mapGet m h ≠ []) :
    ∃ code, generateBreakFileBodyCode arr m = .ok code
      ∧ generateBreakFileBody arr m = .ok code.render
      ∧ arr.length < code.leaves.length := by
  have hne : arr ≠ [] := by
    intro h
    rw [h] at hn
    simp at hn
  obtain ⟨code, hc, ht, hg⟩ := generateBreakFileBody_returns arr m hne hm
  refine ⟨code, hc, ht, ?_⟩
  have := hg.leaves_length_gt (le_refl _) (by omega)
  omega

/-- C20: for the empty hash sequence, which is what `makeMap` returns when no path is
discovered, `generateBreakFileBody` calls the helper with `low = 0` and `high = -1`; the
helper computes `mid = (-1 + 0) / 2 = 0 = low` and reads `arr[0]`, which is out of range:
the outcome is a panic, not a text, whatever the map. -/
theorem generateBreakFileBody_empty_panics (uintSize : Nat) (m : myMap) :
    makeMap uintSize [] = .ok ([], [])
      ∧ ((([] : List Nat).length : Int) - 1 = -1)
      ∧ ((-1 : Int) + 0).tdiv 2 = 0
      ∧ index ([] : List Nat) 0 = .panic
      ∧ generateBreakFileBody [] m = .panic
      ∧ generateBreakFileBodyCode [] m = .panic
      ∧ ∀ fuel indent, generateBreakHelper (fuel + 1) [] m 0 (-1) indent = .panic := by
  refine ⟨rfl, by decide, by decide, rfl, rfl, rfl, fun fuel indent => rfl⟩

/-! ## Totality of `generateBreakHelper` -/

theorem foundHashCode_cases (hash : Nat) (files : List ByteStr) (indent : Nat) :
    (∃ file, foundHashCode hash files indent = .ok (.foundHash hash file indent))
      ∨ (foundHashCode hash files indent = .panic ∧ files = []) := by
  cases files with
  | nil => exact Or.inr ⟨rfl, rfl⟩
  | cons f rest => exact Or.inl ⟨f, by simp [foundHashCode, index]⟩

/-- With a budget above the width of a valid range the helper never runs out of budget,
whatever the map: it returns, or it panics in `foundHash` on a hash of the range that
has no path. No read of `arr` panics. -/
theorem generateBreakHelperCode_outcome (fuel : Nat) (arr : List Nat) (m : myMap)
    (low high : Int) (indent : Nat)
    (h0 : 0 ≤ low) (hlh : low ≤ high) (hlen : high < (arr.length : Int))
    (hfuel : high - low < (fuel : Int)) :
    (∃ code, generateBreakHelperCode fuel arr m low high indent = .ok code)
      ∨ (generateBreakHelperCode fuel arr m low high indent = .panic
          ∧ ∃ k h, low ≤ k ∧ k ≤ high ∧ index arr k = .ok h ∧ mapGet m h = []) := by
  induction fuel generalizing low high indent with
  | zero => omega
  | succ fuel ih =>
    simp only [generateBreakHelperCode]
    split
    · next heq =>
      obtain ⟨x, hx, _⟩ := index_in_range arr low h0 (by omega)
      rw [hx, Res.ok_bind]
      rcases foundHashCode_cases x (mapGet m x) indent with ⟨f, hf⟩ | ⟨hp, hnil⟩
      · exact Or.inl ⟨_, hf⟩
      · exact Or.inr ⟨hp, low, x, le_refl _, hlh, hx, hnil⟩
    · next hne =>
      have hmidv : (high + low).tdiv 2 = (high + low) / 2 := tdiv_two _ (by omega)
      obtain ⟨x, hx, _⟩ := index_in_range arr ((high + low).tdiv 2) (by omega) (by omega)
      split
      · next hmid =>
        rw [hx, Res.ok_bind]
        rcases foundHashCode_cases x (mapGet m x) (indent + 4) with ⟨f, hf⟩ | ⟨hp, hnil⟩
        · rw [hf, Res.ok_bind]
          obtain ⟨y, hy, _⟩ := index_in_range arr high (by omega) hlen
          rw [hy, Res.ok_bind]
          rcases foundHashCode_cases y (mapGet m y) (indent + 4) with ⟨g, hg⟩ | ⟨hq, hnil2⟩
          · rw [hg, Res.ok_bind]
            exact Or.inl ⟨_, rfl⟩
          · rw [hq, Res.panic_bind]
            exact Or.inr ⟨rfl, high, y, hlh, le_refl _, hy, hnil2⟩
        · rw [hp, Res.panic_bind]
          exact Or.inr ⟨rfl, _, x, by omega, by omega, hx, hnil⟩
      · next hmid =>
        rw [hx, Res.ok_bind]
        rcases foundHashCode_cases x (mapGet m x) (indent + 4) with ⟨f, hf⟩ | ⟨hp, hnil⟩
        · rw [hf, Res.ok_bind]
          rcases ih low ((high + low).tdiv 2) (indent + 4) h0 (by omega) (by omega) (by omega)
            with ⟨l, hl⟩ | ⟨hl, k, h, k1, k2, k3, k4⟩
          · rw [hl, Res.ok_bind]
            rcases ih ((high + low).tdiv 2 + 1) high (indent + 4) (by omega) (by omega) hlen
              (by omega) with ⟨r, hr⟩ | ⟨hr, k, h, k1, k2, k3, k4⟩
            · rw [hr, Res.ok_bind]
              exact Or.inl ⟨_, rfl⟩
            · rw [hr, Res.panic_bind]
              exact Or.inr ⟨rfl, k, h, by omega, k2, k3, k4⟩
          · rw [hl, Res.panic_bind]
            exact Or.inr ⟨rfl, k, h, k1, by omega, k3, k4⟩
        · rw [hp, Res.panic_bind]
          exact Or.inr ⟨rfl, _, x, by omega, by omega, hx, hnil⟩

/-- On a valid range the result of the helper is the same for every budget above the
width of the range. -/
theorem generateBreakHelperCode_fuel (fuel1 fuel2 : Nat) (arr : List Nat) (m : myMap)
    (low high : Int) (indent : Nat) (h0 : 0 ≤ low) (hlh : low ≤ high)
    (h1 : high - low < (fuel1 : Int)) (h2 : high - low < (fuel2 : Int)) :
    generateBreakHelperCode fuel1 arr m low high indent
      = generateBreakHelperCode fuel2 arr m low high indent := by
  induction fuel1 generalizing fuel2 low high indent with
  | zero => omega
  | succ fuel1 ih =>
    cases fuel2 with
    | zero => omega
    | succ fuel2 =>
      simp only [generateBreakHelperCode]
      split
      · rfl
      · next hne =>
        have hmidv : (high + low).tdiv 2 = (high + low) / 2 := tdiv_two _ (by omega)
        split
        · rfl
        · next hmid =>
          rw [ih fuel2 low ((high + low).tdiv 2) (indent + 4) h0 (by omega) (by omega) (by omega),
            ih fuel2 ((high + low).tdiv 2 + 1) high (indent + 4) (by omega) (by omega) (by omega)
              (by omega)]

/-- On a valid range the helper reads `arr` at indices of the range only: two sequences
that agree on the range give the same result. -/
theorem generateBreakHelperCode_reads (fuel : Nat) (arr arr2 : List Nat) (m : myMap)
    (low high : Int) (indent : Nat) (h0 : 0 ≤ low) (hlh : low ≤ high)
    (hagree : ∀ k, low ≤ k → k ≤ high → index arr2 k = index arr k) :
    generateBreakHelperCode fuel arr2 m low high indent
      = generateBreakHelperCode fuel arr m low high indent := by
  induction fuel generalizing low high indent with
  | zero => rfl
  | succ fuel ih =>
    simp only [generateBreakHelperCode]
    split
    · rw [hagree low (le_refl _) hlh]
    · next hne =>
      have hmidv : (high + low).tdiv 2 = (high + low) / 2 := tdiv_two _ (by omega)
      split
      · rw [hagree _ (by omega) (by omega), hagree high hlh (le_refl _)]
      · next hmid =>
        rw [hagree _ (by omega) (by omega),
          ih low ((high + low).tdiv 2) (indent + 4) h0 (by omega)
            (fun k k1 k2 => hagree k k1 (by omega)),
          ih ((high + low).tdiv 2 + 1) high (indent + 4) (by omega) (by omega)
            (fun k k1 k2 => hagree k (by omega) k2)]

/-- C19 (as amended): on a valid range `0 ≤ low ≤ high < len(arr)`, the recursive calls of
`generateBreakHelper` are on `[low, mid]` with `mid < high` and on `[mid + 1, high]` with
`mid + 1 > low`, both inside `[low, high]`; the recursion comes back, with the same
result for every budget above the width of the range; the helper reads `arr` inside
`[low, high]` only, and no read of `arr` is out of range: for any map the outcome is a
text, or the panic of `foundHash` on a hash of the range without a path. When every hash
of `arr` has a path in the map, the helper and `generateBreakFileBody` return a text. -/
theorem generateBreakHelper_total_on_valid_range (arr : List Nat) (m : myMap)
    (low high : Int) (indent : Nat)
    (h0 : 0 ≤ low) (hlh : low ≤ high) (hlen : high < (arr.length : Int))
    (hm : ∀ h ∈ arr, mapGet m h ≠ []) :
    (high ≠ low →
        low ≤ (high + low).tdiv 2 ∧ (high + low).tdiv 2 < high
        ∧ low < (high + low).tdiv 2 + 1 ∧ (high + low).tdiv 2 + 1 ≤ high)
      ∧ (∀ fuel, high ≠ low → (high + low).tdiv 2 ≠ low →
          generateBreakHelper (fuel + 1) arr m low high indent
            = (index arr ((high + low).tdiv 2)).bind fun hm =>
              (foundHash hm (mapGet m hm) (indent + 4)).bind fun ifb =>
              (generateBreakHelper fuel arr m low ((high + low).tdiv 2) (indent + 4)).bind
                fun elseifb =>
              (generateBreakHelper fuel arr m ((high + low).tdiv 2 + 1) high (indent + 4)).bind
                fun elseb =>
              .ok (ifThenElse (eq hm) ifb (lt hm) elseifb elseb indent))
      ∧ (∃ text, ∀ fuel : Nat, high - low < (fuel : Int) →
          generateBreakHelper fuel arr m low high indent = .ok text)
      ∧ (∀ (fuel : Nat) (arr2 : List Nat),
          (∀ k, low ≤ k → k ≤ high → index arr2 k = index arr k) →
          generateBreakHelper fuel arr2 m low high indent
            = generateBreakHelper fuel arr m low high indent)
      ∧ (∀ (m2 : myMap) (fuel : Nat), high - low < (fuel : Int) →
          (∃ text, generateBreakHelper fuel arr m2 low high indent = .ok text)
          ∨ (generateBreakHelper fuel arr m2 low high indent = .panic
              ∧ ∃ k h, low ≤ k ∧ k ≤ high ∧ index arr k = .ok h ∧ mapGet m2 h = []))
      ∧ ∃ text, generateBreakFileBody arr m = .ok text := by
  refine ⟨fun hne => ?_, fun fuel hne hmid => ?_, ?_, fun fuel arr2 hag => ?_,
    fun m2 fuel hf => ?_, ?_⟩
  · have := tdiv_two (high + low) (by omega)
    omega
  · simp only [generateBreakHelper, hne, hmid, if_false]
  · obtain ⟨code, hc⟩ := generateBreakHelperCode_total ((high - low).toNat + 1) arr m low high
      indent hm h0 hlh hlen (by omega)
    refine ⟨code.render, fun fuel hf => ?_⟩
    rw [generateBreakHelper_render,
      generateBreakHelperCode_fuel fuel ((high - low).toNat + 1) arr m low high indent h0 hlh hf
        (by omega), hc]
    rfl
  · rw [generateBreakHelper_render, generateBreakHelper_render,
      generateBreakHelperCode_reads fuel arr arr2 m low high indent h0 hlh hag]
  · rw [generateBreakHelper_render]
    rcases generateBreakHelperCode_outcome fuel arr m2 low high indent h0 hlh hlen hf
      with ⟨code, hc⟩ | ⟨hp, hk⟩
    · exact Or.inl ⟨code.render, by rw [hc]; rfl⟩
    · exact Or.inr ⟨by rw [hp]; rfl, hk⟩
  · have hne : arr ≠ [] := by
      intro h
      rw [h] at hlen
      simp at hlen
      omega
    obtain ⟨code, _, ht, _⟩ := generateBreakFileBody_returns arr m hne hm
    exact ⟨_, ht⟩

/-- C19 (as amended) at the whole range of the sequence 10, 20, 30. -/
theorem generateBreakHelper_total_on_valid_range_witness :
    ((0 : Int) ≤ 0 ∧ (0 : Int) ≤ 2 ∧ (2 : Int) < (([10, 20, 30] : List Nat).length : Int))
      ∧ (∃ text, ∀ fuel : Nat, (2 : Int) - 0 < (fuel : Int) →
          generateBreakHelper fuel [10, 20, 30] [(10, [[97]]), (20, [[98]]), (30, [[99]])] 0 2 4
            = .ok text)
      ∧ ∃ text, generateBreakFileBody [10, 20, 30] [(10, [[97]]), (20, [[98]]), (30, [[99]])]
          = .ok text :=
  have h := generateBreakHelper_total_on_valid_range [10, 20, 30]
    [(10, [[97]]), (20, [[98]]), (30, [[99]])] 0 2 4 (by decide) (by decide) (by decide)
    (by decide)
  ⟨by decide, h.2.2.1, h.2.2.2.2.2⟩

/-- C19, counterexample: for the one-element sequence `[10]` and the empty map, the range
`[0, 0]` is valid, and both the helper and `generateBreakFileBody` end in the
index-out-of-range panic of `matchingFiles[0]`. -/
theorem generateBreakFileBody_panics_without_path :
    ([10] : List Nat) ≠ []
      ∧ ((0 : Int) ≤ 0 ∧ (0 : Int) < (([10] : List Nat).length : Int))
      ∧ generateBreakHelper 2 [10] [] 0 0 4 = .panic
      ∧ generateBreakFileBody [10] [] = .panic
      ∧ index (mapGet [] 10) 0 = .panic := by
  decide

end Dontbug
